import Mathlib

/-!
# Lute parser (`parse.go`): token cursor and grammar rules

A shallow embedding of `parse.go`.  The `Tree` of the Go code is a record that is
passed explicitly; every method `func (t *Tree) f(...) r` becomes a function
`f : ... → Tree → Res r` that returns the result together with the updated record.
A Go run-time panic (index out of range on the 3-slot buffer, use of a nil lexer)
is the outcome `Res.panic`, which keeps the record as it was when the panic was raised.
Loops and recursion that Go leaves unbounded are run with a fuel counter; running
out of fuel is the separate outcome `Res.outOfFuel`.
-/

namespace Lute

/-! ## Data model -/

/-- Modelled from the spec: the token kinds (the `itemType` constants of the lexer, which is
not part of `parse.go`).  The constructors are the kinds `parse.go` names; every other
kind of the lexer is `itemOther`. -/
inductive itemType where
  | itemError
  | itemEOF
  | itemSpace
  | itemTab
  | itemStr
  | itemParagraph
  | itemHeading
  | itemThematicBreak
  | itemQuote
  | itemListItem
  | itemCode
  | itemInlineCode
  | itemEm
  | itemStrong
  | itemBreak
  | itemOther (tag : Nat)
  deriving DecidableEq, Repr

open itemType

/-- Modelled from the spec: a token (`item` of the lexer): kind, source position, literal. -/
structure item where
  typ : itemType
  pos : Int
  val : String
  deriving DecidableEq, Repr

/-- Modelled from the spec: the lexer as the finite sequence of tokens it has not delivered
yet. -/
structure lexer where
  items : List item
  deriving DecidableEq, Repr

/-- The token a drained lexer delivers: end-of-input. -/
def eofItem : item := ⟨itemEOF, 0, ""⟩

/-- Modelled from the spec: `lexer.nextItem`, a lazy, finite, non-restartable sequence; once the
sequence is used up every later request yields end-of-input. -/
def lexer.nextItem (l : lexer) : item × lexer :=
  match l.items with
  | [] => (eofItem, l)
  | x :: rest => (x, ⟨rest⟩)

/-- Modelled from the spec: the node type tags (the `NodeType` constants of the node model,
which is not part of `parse.go`). -/
inductive NodeType where
  | NodeRoot
  | NodeParagraph
  | NodeHeading
  | NodeThematicBreak
  | NodeBlockquote
  | NodeList
  | NodeListItem
  | NodeText
  | NodeEmphasis
  | NodeStrong
  | NodeDelete
  | NodeInlineCode
  | NodeCode
  | NodeBreak
  deriving DecidableEq, Repr

open NodeType

/-- Modelled from the spec: the values of the Go interface `Node`, one constructor per struct
that `parse.go` builds, with the fields in the order of the composite literals of `parse.go`
(`Parent{NodeType, Pos, nil}` contributes the tag and the position; its third field is `nil`
in every literal and is left out).  `nil` is the nil interface value, which the rules return
for "no node". -/
inductive Node where
  | nil
  | Root (typ : NodeType) (pos : Int) (children : List Node)
  | Paragraph (typ : NodeType) (pos : Int) (children : List Node)
  | Heading (typ : NodeType) (pos : Int) (depth : Int) (children : List Node)
  | ThematicBreak (typ : NodeType) (pos : Int)
  | Blockquote (typ : NodeType) (pos : Int) (children : List Node)
  | List (typ : NodeType) (pos : Int) (ordered : Bool) (start : Int) (spread : Bool)
      (children : List Node)
  | ListItem (typ : NodeType) (pos : Int) (checked : Bool) (spread : Bool)
      (children : List Node)
  | Text (typ : NodeType) (pos : Int) (val : String)
  | Emphasis (typ : NodeType) (pos : Int) (children : List Node)
  | Strong (typ : NodeType) (pos : Int) (children : List Node)
  | Delete (typ : NodeType) (pos : Int) (children : List Node)
  | InlineCode (typ : NodeType) (pos : Int) (val : String)
  | Code (typ : NodeType) (pos : Int) (val : String) (lang : String) (info : String)
  | Break (typ : NodeType) (pos : Int)

/-- The record `Tree` of `parse.go`; `token0`, `token1`, `token2` are the array `token [3]item`,
`lex = none` is the nil lexer handle and `Root = Node.nil` the nil root. -/
structure Tree where
  Root : Node
  name : String
  text : String
  lex : Option lexer
  token0 : item
  token1 : item
  token2 : item
  peekCount : Int

/-- The run-time panics the parser can raise. -/
inductive Panic where
  | indexOutOfRange (index : Int)
  | nilLexer
  deriving DecidableEq, Repr

/-- The outcome of running a method on a `Tree`. -/
inductive Res (α : Type) where
  | ok (a : α) (t : Tree)
  | panic (e : Panic) (t : Tree)
  | outOfFuel

/-- Sequencing: run the continuation on a normal outcome, pass the others through. -/
def Res.bind {α β : Type} (r : Res α) (k : α → Tree → Res β) : Res β :=
  match r with
  | .ok a t => k a t
  | .panic e t => .panic e t
  | .outOfFuel => .outOfFuel

/-! ## Token cursor -/

/-- The array read `t.token[i]`. -/
def tokenAt (t : Tree) (i : Int) : Res item :=
  if i = 0 then .ok t.token0 t
  else if i = 1 then .ok t.token1 t
  else if i = 2 then .ok t.token2 t
  else .panic (.indexOutOfRange i) t

/-- The call `next`: the next token, from the buffer when tokens are pending, else from the
lexer. -/
def next (t : Tree) : Res item :=
  if 0 < t.peekCount then
    let t1 := { t with peekCount := t.peekCount - 1 }
    tokenAt t1 t1.peekCount
  else
    match t.lex with
    | none => .panic .nilLexer t
    | some l =>
      let t1 := { t with token0 := l.nextItem.1, lex := some l.nextItem.2 }
      tokenAt t1 t1.peekCount

/-- The call `backup`. -/
def backup (t : Tree) : Tree :=
  { t with peekCount := t.peekCount + 1 }

/-- The call `backup2`. -/
def backup2 (t1 : item) (t : Tree) : Tree :=
  { t with token1 := t1, peekCount := 2 }

/-- The call `backup3`. -/
def backup3 (t2 t1 : item) (t : Tree) : Tree :=
  { t with token1 := t1, token2 := t2, peekCount := 3 }

/-- The call `peek`. -/
def peek (t : Tree) : Res item :=
  if 0 < t.peekCount then
    tokenAt t (t.peekCount - 1)
  else
    let t1 := { t with peekCount := 1 }
    match t1.lex with
    | none => .panic .nilLexer t1
    | some l =>
      let t2 := { t1 with token0 := l.nextItem.1, lex := some l.nextItem.2 }
      .ok t2.token0 t2

/-- A cursor as `Parse` creates it before `parse` runs and `startParse` has installed the
lexer: zero-valued buffer, nothing pending. -/
def freshTree (items : List item) : Tree :=
  { Root := .nil, name := "", text := "", lex := some ⟨items⟩,
    token0 := ⟨itemError, 0, ""⟩, token1 := ⟨itemError, 0, ""⟩, token2 := ⟨itemError, 0, ""⟩,
    peekCount := 0 }

/-- Cursor states that calls of `next`, `peek`, `backup`, `backup2` and `backup3` reach from a
fresh cursor. -/
inductive Reachable : Tree → Prop where
  | fresh (items : List item) : Reachable (freshTree items)
  | next {t t1 : Tree} {x : item} : Reachable t → next t = .ok x t1 → Reachable t1
  | peek {t t1 : Tree} {x : item} : Reachable t → peek t = .ok x t1 → Reachable t1
  | backup {t : Tree} : Reachable t → Reachable (backup t)
  | backup2 {t : Tree} (a : item) : Reachable t → Reachable (backup2 a t)
  | backup3 {t : Tree} (a b : item) : Reachable t → Reachable (backup3 a b t)


/-- A call on the cursor that is not a backup. -/
inductive CursorOp where
  | peek
  | next
  deriving DecidableEq, Repr

/-- Run a sequence of `peek` and `next` calls, recording each call with the token it
returned. -/
def runOps : List CursorOp → Tree → Res (List (CursorOp × item))
  | [], t => .ok [] t
  | op :: ops, t =>
    (match op with
      | .peek => peek t
      | .next => next t).bind fun x t1 =>
    (runOps ops t1).bind fun tr t2 => .ok ((op, x) :: tr) t2

/-- The `i`-th token of the stream a lexer over `items` delivers (end-of-input once the
sequence is used up). -/
def streamAt (items : List item) (i : Nat) : item :=
  items.getD i eofItem

/-- The tokens returned by the `next` calls of a recorded run, in call order. -/
def nextResults (tr : List (CursorOp × item)) : List item :=
  (tr.filter fun p => p.1 = CursorOp.next).map Prod.snd

/-- The token returned by the first `next` call of a recorded run, if there is one. -/
def followingNext : List (CursorOp × item) → Option item
  | [] => none
  | (.next, x) :: _ => some x
  | (.peek, _) :: tr => followingNext tr

/-- The recorded run the cursor contract prescribes when `c` tokens have been consumed:
every call returns the token at the current stream position and only `next` advances it. -/
def specTrace (items : List item) : Nat → List CursorOp → List (CursorOp × item)
  | _, [] => []
  | c, .peek :: ops => (.peek, streamAt items c) :: specTrace items c ops
  | c, .next :: ops => (.next, streamAt items c) :: specTrace items (c + 1) ops

/-- The state of a cursor that has consumed `c` tokens of `items` using `peek` and `next`
only: at most one token is pending, and it is the token at position `c`. -/
def CursorAt (items : List item) (c : Nat) (t : Tree) : Prop :=
  (t.peekCount = 0 ∧ t.lex = some ⟨items.drop c⟩) ∨
  (t.peekCount = 1 ∧ t.lex = some ⟨items.drop (c + 1)⟩ ∧ t.token0 = streamAt items c)


/-! ## Node model operations -/

/-- Whether a node value is the nil interface value. -/
def Node.isNil : Node → Bool
  | .nil => true
  | _ => false

/-- Modelled from the spec: `append(parent, child)` adds the child at the end of the ordered
child sequence of a container node (the `append` methods of the node model are not part of
`parse.go`). -/
def Node.append (n c : Node) : Node :=
  match n with
  | .Root ty p cs => .Root ty p (cs ++ [c])
  | .Paragraph ty p cs => .Paragraph ty p (cs ++ [c])
  | .Heading ty p d cs => .Heading ty p d (cs ++ [c])
  | .Blockquote ty p cs => .Blockquote ty p (cs ++ [c])
  | .List ty p o st sp cs => .List ty p o st sp (cs ++ [c])
  | .ListItem ty p ch sp cs => .ListItem ty p ch sp (cs ++ [c])
  | .Emphasis ty p cs => .Emphasis ty p (cs ++ [c])
  | .Strong ty p cs => .Strong ty p (cs ++ [c])
  | .Delete ty p cs => .Delete ty p (cs ++ [c])
  | n => n

/-- The child sequence of a node (empty for leaves and nil). -/
def childrenOf : Node → List Node
  | .Root _ _ cs => cs
  | .Paragraph _ _ cs => cs
  | .Heading _ _ _ cs => cs
  | .Blockquote _ _ cs => cs
  | .List _ _ _ _ _ cs => cs
  | .ListItem _ _ _ _ cs => cs
  | .Emphasis _ _ cs => cs
  | .Strong _ _ cs => cs
  | .Delete _ _ cs => cs
  | _ => []

/-- Modelled from the spec: a whitespace-only child, the kind of child `trim` strips from the
end of a paragraph ("used to strip trailing breaks/spaces"): a Break leaf, or a Text leaf
whose literal consists of white space. -/
def Node.isWhitespace : Node → Bool
  | .Break _ _ => true
  | .Text _ _ val => val.data.all Char.isWhitespace
  | _ => false

/-- Modelled from the spec: `trim(parent)` removes the last child of the paragraph when that
child is whitespace-only (the `trim` method of the node model is not part of `parse.go`). -/
def Node.trim (n : Node) : Node :=
  match n with
  | .Paragraph ty p cs =>
    match cs.getLast? with
    | some c => if c.isWhitespace then .Paragraph ty p cs.dropLast else n
    | none => n
  | n => n

/-! ## Grammar rules -/

/-- The loop of `acceptSpaces`: `ret` counts the space tokens consumed so far. -/
def acceptSpacesLoop : Nat → Int → Tree → Res Int
  | 0, _, _ => .outOfFuel
  | fuel + 1, ret, t =>
    (next t).bind fun token t1 =>
    if itemSpace ≠ token.typ then .ok ret (backup t1)
    else acceptSpacesLoop fuel (ret + 1) t1

/-- The call `acceptSpaces`. -/
def acceptSpaces (fuel : Nat) (t : Tree) : Res Int :=
  (acceptSpacesLoop fuel 0 t).bind fun ret t1 =>
  if 4 ≤ ret then .ok ret (backup t1) else .ok ret t1

/-- The call `acceptTabs(tabs)`; the argument counts the iterations that remain. -/
def acceptTabs : Nat → Tree → Res Unit
  | 0, t => .ok () t
  | tabs + 1, t =>
    (next t).bind fun token t1 =>
    if itemTab ≠ token.typ then .ok () (backup t1)
    else acceptTabs tabs t1

/-- The rule `parseText`. -/
def parseText (t : Tree) : Res Node :=
  (next t).bind fun token t1 => .ok (.Text NodeText token.pos token.val) t1

/-- The rule `parseBreak`. -/
def parseBreak (t : Tree) : Res Node :=
  (next t).bind fun token t1 => .ok (.Break NodeBreak token.pos) t1

/-- The rule `parseThematicBreak`. -/
def parseThematicBreak (t : Tree) : Res Node :=
  (next t).bind fun token t1 => .ok (.ThematicBreak NodeThematicBreak token.pos) t1

/-- The rule `parseInlineCode`. -/
def parseInlineCode (t : Tree) : Res Node :=
  (next t).bind fun _ t1 =>
  (next t1).bind fun code t2 =>
  (next t2).bind fun _ t3 =>
  .ok (.InlineCode NodeInlineCode code.pos code.val) t3

/-- The rule `parseEm`; the argument is the call `t.parsePhrasingContent()`. -/
def parseEm (parsePhrasingContent : Tree → Res Node) (t : Tree) : Res Node :=
  (next t).bind fun _ t1 =>
  (peek t1).bind fun token t2 =>
  (parsePhrasingContent t2).bind fun c t3 =>
  (next t3).bind fun _ t4 =>
  .ok (.Emphasis NodeEmphasis token.pos [c]) t4

/-- The rule `parseStrong`; the argument is the call `t.parsePhrasingContent()`. -/
def parseStrong (parsePhrasingContent : Tree → Res Node) (t : Tree) : Res Node :=
  (next t).bind fun _ t1 =>
  (peek t1).bind fun token t2 =>
  (parsePhrasingContent t2).bind fun c t3 =>
  (next t3).bind fun _ t4 =>
  .ok (.Strong NodeStrong token.pos [c]) t4

/-- The rule `parseDelete`; the argument is the call `t.parsePhrasingContent()`. -/
def parseDelete (parsePhrasingContent : Tree → Res Node) (t : Tree) : Res Node :=
  (next t).bind fun _ t1 =>
  (peek t1).bind fun token t2 =>
  (parsePhrasingContent t2).bind fun c t3 =>
  (next t3).bind fun _ t4 =>
  .ok (.Delete NodeDelete token.pos [c]) t4

/-- The rule `parseStaticPhrasingContent` (the inline engine); one unit of fuel per level of
nesting. -/
def parseStaticPhrasingContent : Nat → Tree → Res Node
  | 0, _ => .outOfFuel
  | fuel + 1, t =>
    (peek t).bind fun token t1 =>
    match token.typ with
    | itemStr => parseText t1
    | itemEm => parseEm (parseStaticPhrasingContent fuel) t1
    | itemStrong => parseStrong (parseStaticPhrasingContent fuel) t1
    | itemInlineCode => parseInlineCode t1
    | itemBreak => parseBreak t1
    | _ => .ok .nil t1

/-- The rule `parsePhrasingContent`. -/
def parsePhrasingContent (fuel : Nat) (t : Tree) : Res Node :=
  parseStaticPhrasingContent fuel t

/-- The loop of `parseParagraph`: `ret` is the paragraph built so far. -/
def parseParagraphLoop (parsePhrasingContent : Tree → Res Node) :
    Nat → Node → Tree → Res Node
  | 0, _, _ => .outOfFuel
  | fuel + 1, ret, t =>
    (parsePhrasingContent t).bind fun c t1 =>
    if c.isNil then .ok ret.trim t1
    else parseParagraphLoop parsePhrasingContent fuel (ret.append c) t1

/-- The rule `parseParagraph`; the first argument is the call `t.parsePhrasingContent()`. -/
def parseParagraph (parsePhrasingContent : Tree → Res Node) (fuel : Nat) (t : Tree) :
    Res Node :=
  (peek t).bind fun token t1 =>
  parseParagraphLoop parsePhrasingContent fuel (.Paragraph NodeParagraph token.pos []) t1

/-- The length `len(s)` of a Go string: its number of bytes. -/
def len (s : String) : Int := s.utf8ByteSize

/-- The rule `parseHeading`; the argument is the call `t.parsePhrasingContent()`. -/
def parseHeading (parsePhrasingContent : Tree → Res Node) (t : Tree) : Res Node :=
  (next t).bind fun token t1 =>
  (next t1).bind fun _ t2 =>
  (parsePhrasingContent t2).bind fun c t3 =>
  .ok (.Heading NodeHeading token.pos (len token.val) [c]) t3

/-- The rule `parseBlockquote`; the argument is the call `t.parseBlockContent(0)`. -/
def parseBlockquote (parseBlockContent0 : Tree → Res Node) (t : Tree) : Res Node :=
  (next t).bind fun token t1 =>
  (next t1).bind fun _ t2 =>
  (parseBlockContent0 t2).bind fun c t3 =>
  .ok (.Blockquote NodeParagraph token.pos [c]) t3

/-- The loop of `parseCode`: `token` is the token under inspection, `code` the text
accumulated so far. -/
def parseCodeLoop : Nat → item → String → Tree → Res String
  | 0, _, _, _ => .outOfFuel
  | fuel + 1, token, code, t =>
    if itemCode ≠ token.typ ∧ itemEOF ≠ token.typ then
      let code1 := code ++ token.val
      if itemBreak = token.typ then
        (peek t).bind fun p t1 =>
        if itemCode = p.typ then .ok code1 t1
        else
          (acceptSpaces fuel t1).bind fun spaces t2 =>
          if 4 > spaces then .ok code1 t2
          else (next t2).bind fun token1 t3 => parseCodeLoop fuel token1 code1 t3
      else (next t).bind fun token1 t1 => parseCodeLoop fuel token1 code1 t1
    else .ok code t

/-- The rule `parseCode`. -/
def parseCode (fuel : Nat) (t : Tree) : Res Node :=
  (next t).bind fun _ t1 =>
  (next t1).bind fun token t2 =>
  (parseCodeLoop fuel token "" t2).bind fun code t3 =>
  (peek t3).bind fun p t4 =>
  if itemEOF = p.typ then .ok (.Code NodeCode token.pos code "" "") t4
  else (next t4).bind fun _ t5 => .ok (.Code NodeCode token.pos code "" "") t5

/-- The loop of `parseListItem`: `ret` is the list item built so far. -/
def parseListItemLoop (parseBlockContent1 : Tree → Res Node) : Nat → Node → Tree → Res Node
  | 0, _, _ => .outOfFuel
  | fuel + 1, ret, t =>
    (parseBlockContent1 t).bind fun c t1 =>
    if c.isNil then .ok ret t1
    else parseListItemLoop parseBlockContent1 fuel (ret.append c) t1

/-- The rule `parseListItem`; the first argument is the call `t.parseBlockContent(1)`. -/
def parseListItem (parseBlockContent1 : Tree → Res Node) (fuel : Nat) (t : Tree) : Res Node :=
  (peek t).bind fun token t1 =>
  if itemEOF = token.typ then .ok .nil t1
  else parseListItemLoop parseBlockContent1 fuel
    (.ListItem NodeListItem token.pos false false []) t1

/-- The loop of `parseList`: `list` is the list built so far. -/
def parseListLoop (parseBlockContent1 : Tree → Res Node) (itemFuel : Nat) :
    Nat → Node → Tree → Res Node
  | 0, _, _ => .outOfFuel
  | fuel + 1, list, t =>
    (parseListItem parseBlockContent1 itemFuel t).bind fun c t1 =>
    if c.isNil then .ok list t1
    else parseListLoop parseBlockContent1 itemFuel fuel (list.append c) t1

/-- The rule `parseList`; the first argument is the call `t.parseBlockContent(1)`. -/
def parseList (parseBlockContent1 : Tree → Res Node) (fuel : Nat) (t : Tree) : Res Node :=
  (next t).bind fun _ t1 =>
  (next t1).bind fun _ t2 =>
  (peek t2).bind fun token t3 =>
  parseListLoop parseBlockContent1 fuel fuel (.List NodeList token.pos false 1 false []) t3

/-- The rule `parseBlockContent(indentLevel)` (the block engine); one unit of fuel per level of
nesting and per turn of its loop, and the remaining fuel bounds the loops of the rules it
calls. -/
def parseBlockContent : Nat → Nat → Tree → Res Node
  | 0, _, _ => .outOfFuel
  | fuel + 1, indentLevel, t =>
    (acceptTabs indentLevel t).bind fun _ t1 =>
    (peek t1).bind fun token t2 =>
    match token.typ with
    | itemParagraph => (next t2).bind fun _ t3 => parseBlockContent fuel indentLevel t3
    | itemStr => parseParagraph (parseStaticPhrasingContent fuel) fuel t2
    | itemHeading => parseHeading (parseStaticPhrasingContent fuel) t2
    | itemThematicBreak => parseThematicBreak t2
    | itemQuote => parseBlockquote (parseBlockContent fuel 0) t2
    | itemInlineCode => parseInlineCode t2
    | itemCode => parseCode fuel t2
    | itemTab => parseCode fuel t2
    | itemListItem => parseList (parseBlockContent fuel 1) fuel t2
    | _ => .ok .nil t2

/-- The rule `parseTopLevelContent`. -/
def parseTopLevelContent (fuel : Nat) (t : Tree) : Res Node :=
  parseBlockContent fuel 0 t

/-- The loop of `parseContent`. -/
def parseContentLoop : Nat → Tree → Res Unit
  | 0, _ => .outOfFuel
  | fuel + 1, t =>
    (peek t).bind fun token t1 =>
    if itemEOF ≠ token.typ ∧ itemError ≠ token.typ then
      (match token.typ with
        | itemSpace =>
          (acceptSpaces fuel t1).bind fun spaces t2 =>
          if 4 ≤ spaces then parseCode fuel t2 else parseTopLevelContent fuel t2
        | itemStr => parseTopLevelContent fuel t1
        | itemParagraph => parseTopLevelContent fuel t1
        | itemHeading => parseTopLevelContent fuel t1
        | itemThematicBreak => parseTopLevelContent fuel t1
        | itemQuote => parseTopLevelContent fuel t1
        | itemListItem => parseTopLevelContent fuel t1
        | itemCode => parseTopLevelContent fuel t1
        | itemTab => parseTopLevelContent fuel t1
        | _ => parsePhrasingContent fuel t1).bind fun c t3 =>
      parseContentLoop fuel { t3 with Root := t3.Root.append c }
    else .ok () t1

/-- The rule `parseContent`. -/
def parseContent (fuel : Nat) (t : Tree) : Res Unit :=
  parseContentLoop fuel { t with Root := .Root NodeRoot 0 [] }

/-- The root a run of `parseContent` leaves in the record, if the run returns. -/
def parsedRoot (fuel : Nat) (items : List item) : Option Node :=
  match parseContent fuel (freshTree items) with
  | .ok _ t => some t.Root
  | _ => none


/-! ## Specification vocabulary -/

/-- The results of successive calls of the inline engine from a cursor state: the non-nil
nodes in call order, up to the first call that yields no node, with the state that call
leaves. -/
inductive InlineRun (parsePhrasingContent : Tree → Res Node) : Tree → List Node → Tree → Prop where
  | stop {t t1 : Tree} {c : Node} :
      parsePhrasingContent t = .ok c t1 → c.isNil = true → InlineRun parsePhrasingContent t [] t1
  | step {t t1 t2 : Tree} {c : Node} {cs : List Node} :
      parsePhrasingContent t = .ok c t1 → c.isNil = false →
      InlineRun parsePhrasingContent t1 cs t2 → InlineRun parsePhrasingContent t (c :: cs) t2

/-- The token kinds for which the inline engine builds a node. -/
def inlineKinds : List itemType := [itemStr, itemEm, itemStrong, itemInlineCode, itemBreak]

/-- The type tag a node carries (its `NodeType` field). -/
def Node.tag : Node → Option NodeType
  | .nil => none
  | .Root ty _ _ => some ty
  | .Paragraph ty _ _ => some ty
  | .Heading ty _ _ _ => some ty
  | .ThematicBreak ty _ => some ty
  | .Blockquote ty _ _ => some ty
  | .List ty _ _ _ _ _ => some ty
  | .ListItem ty _ _ _ _ => some ty
  | .Text ty _ _ => some ty
  | .Emphasis ty _ _ => some ty
  | .Strong ty _ _ => some ty
  | .Delete ty _ _ => some ty
  | .InlineCode ty _ _ => some ty
  | .Code ty _ _ _ _ => some ty
  | .Break ty _ => some ty

/-- The tag that names a node's own variant (the struct it is a value of). -/
def Node.variantTag : Node → Option NodeType
  | .nil => none
  | .Root _ _ _ => some NodeRoot
  | .Paragraph _ _ _ => some NodeParagraph
  | .Heading _ _ _ _ => some NodeHeading
  | .ThematicBreak _ _ => some NodeThematicBreak
  | .Blockquote _ _ _ => some NodeBlockquote
  | .List _ _ _ _ _ _ => some NodeList
  | .ListItem _ _ _ _ _ => some NodeListItem
  | .Text _ _ _ => some NodeText
  | .Emphasis _ _ _ => some NodeEmphasis
  | .Strong _ _ _ => some NodeStrong
  | .Delete _ _ _ => some NodeDelete
  | .InlineCode _ _ _ => some NodeInlineCode
  | .Code _ _ _ _ _ => some NodeCode
  | .Break _ _ => some NodeBreak

/-- One line of a bullet list: the positions and literals of its list-item marker, space,
text run and break tokens. -/
structure BulletLine where
  markerPos : Int
  markerVal : String
  spacePos : Int
  spaceVal : String
  textPos : Int
  text : String
  breakPos : Int
  breakVal : String

/-- The tokens of a bullet line after its marker: space, text run, break. -/
def BulletLine.tail (l : BulletLine) (rest : List item) : List item :=
  ⟨itemSpace, l.spacePos, l.spaceVal⟩ :: ⟨itemStr, l.textPos, l.text⟩ ::
    ⟨itemBreak, l.breakPos, l.breakVal⟩ :: rest

/-- The list-item marker token of a bullet line. -/
def BulletLine.marker (l : BulletLine) : item :=
  ⟨itemListItem, l.markerPos, l.markerVal⟩

/-- The token stream of a bullet list: each line's marker, space, text run and break, then
end-of-input. -/
def bulletTokens : List BulletLine → Int → String → List item
  | [], ep, ev => [⟨itemEOF, ep, ev⟩]
  | l :: ls, ep, ev => l.marker :: l.tail (bulletTokens ls ep ev)

/-- The Paragraph the paragraph rule builds for the text of a bullet line. -/
def BulletLine.paragraph (l : BulletLine) : Node :=
  .Paragraph NodeParagraph l.textPos [.Text NodeText l.textPos l.text]

/-- The List the list rule builds for a bullet line `l` followed by the lines `rest`: one
ListItem holding the paragraph of `l` and, when lines follow, the List of those lines. -/
def nestedList : BulletLine → List BulletLine → Node
  | l, [] =>
    .List NodeList l.textPos false 1 false
      [.ListItem NodeListItem l.textPos false false [l.paragraph]]
  | l, l2 :: rest =>
    .List NodeList l.textPos false 1 false
      [.ListItem NodeListItem l.textPos false false [l.paragraph, nestedList l2 rest]]

/-- The cursor `base` with the token `tok` pending in slot 0 and `items` left in the lexer. -/
def pendingTree (base : Tree) (tok : item) (items : List item) : Tree :=
  { base with token0 := tok, lex := some ⟨items⟩, peekCount := 1 }

/-! ## Concrete inputs -/

/-- The bullet line `"* item1\n"` at offset 0. -/
def bulletItem1 : BulletLine := ⟨0, "*", 1, " ", 2, "item1", 7, "\n"⟩

/-- The bullet line `"* item2\n"` at offset 8. -/
def bulletItem2 : BulletLine := ⟨8, "*", 9, " ", 10, "item2", 15, "\n"⟩


/-- The tokens of `"#  Title\n"`: a heading marker, two spaces, a text run. -/
def headingTwoSpaces : List item :=
  [⟨itemHeading, 0, "#"⟩, ⟨itemSpace, 1, " "⟩, ⟨itemSpace, 2, " "⟩, ⟨itemStr, 3, "Title"⟩,
    ⟨itemBreak, 8, "\n"⟩, ⟨itemEOF, 9, ""⟩]

/-- A heading marker of seven characters before a space and a text run. -/
def headingSevenMarks : List item :=
  [⟨itemHeading, 0, "#######"⟩, ⟨itemSpace, 7, " "⟩, ⟨itemStr, 8, "Title"⟩,
    ⟨itemBreak, 13, "\n"⟩, ⟨itemEOF, 14, ""⟩]

/-- The tokens of `"> quoted\n"`. -/
def quoteTokens : List item :=
  [⟨itemQuote, 0, ">"⟩, ⟨itemSpace, 1, " "⟩, ⟨itemStr, 2, "quoted"⟩, ⟨itemBreak, 8, "\n"⟩,
    ⟨itemEOF, 9, ""⟩]


def tokX : item := ⟨itemStr, 0, "x"⟩
def tokY : item := ⟨itemStr, 1, "y"⟩
def tokZ : item := ⟨itemStr, 2, "z"⟩

/-- The cursor after reading `x y z` from a fresh cursor and backing up three tokens. -/
def c2Tree : Tree :=
  { freshTree [] with token0 := tokZ, token1 := tokY, token2 := tokX, peekCount := 3 }


/-- The tokens of `"* a\n b\n"`: a bullet line followed by a line that starts with a space. -/
def listThenSpace : List item :=
  [⟨itemListItem, 0, "*"⟩, ⟨itemSpace, 1, " "⟩, ⟨itemStr, 2, "a"⟩, ⟨itemBreak, 3, "\n"⟩,
    ⟨itemSpace, 4, " "⟩, ⟨itemStr, 5, "b"⟩, ⟨itemBreak, 6, "\n"⟩, ⟨itemEOF, 7, ""⟩]

/-- A list-item marker, a space and a text run, followed by the token `last`. -/
def listPrefixThen (last : item) : List item :=
  [⟨itemListItem, 0, "*"⟩, ⟨itemSpace, 1, " "⟩, ⟨itemStr, 2, "a"⟩, last]

/-! ## Stream view of the cursor, `parse`, and the nodes the rules return -/

/-- A cursor in working order: the lexer is installed and the pending count is within the
3-slot buffer. -/
def Valid (t : Tree) : Prop :=
  t.lex.isSome = true ∧ 0 ≤ t.peekCount ∧ t.peekCount ≤ 3

/-- The tokens the cursor will deliver, in order: the pending tokens of the buffer, then the
tokens left in the lexer. -/
def upcoming (t : Tree) : List item :=
  (if t.peekCount = 3 then [t.token2, t.token1, t.token0]
    else if t.peekCount = 2 then [t.token1, t.token0]
    else if t.peekCount = 1 then [t.token0]
    else []) ++
  (match t.lex with
    | some l => l.items
    | none => [])

/-- The call `nextNonSpace`. -/
def nextNonSpace : Nat → Tree → Res item
  | 0, _ => .outOfFuel
  | fuel + 1, t =>
    (next t).bind fun token t1 =>
    if token.typ ≠ itemSpace then .ok token t1
    else nextNonSpace fuel t1

/-- The call `startParse(lex)`. -/
def startParse (lex : lexer) (t : Tree) : Tree :=
  { t with Root := .nil, lex := some lex }

/-- The call `stopParse`. -/
def stopParse (t : Tree) : Tree :=
  { t with lex := none }

/-- Modelled from the spec: `lexer.drain` discards the tokens the lexer has not delivered. -/
def lexer.drain (_l : lexer) : lexer := ⟨[]⟩

/-- How a call of `parse` ends: it returns an error value (`none` is the nil error) with the
record, or a panic leaves it, or the fuel runs out.  The record holds only a handle to the
lexer, which `stopParse` sets to nil; `lexer` is the lexer object itself as the call leaves
it (`none` when the record never had one). -/
inductive ParseOutcome where
  | returned (err : Option Panic) (t : Tree) (lexer : Option lexer)
  | crashed (e : Panic) (t : Tree)
  | outOfFuel

/-- The deferred call `t.recover(&err)`: `e` is the value of the builtin `recover()` (`none`
when no panic is in flight), `err` the named result of `parse` so far, `lexer` the lexer
object as the body of `parse` left it.  With a panic in flight the call drains the lexer the
handle refers to (`t.lex.drain()`), clears the handle (`t.stopParse()`) and stores the panic
value in the result.  The panics of the model are Go run-time errors, so the assertion
`e.(error)` succeeds. -/
def recover (e : Option Panic) (err : Option Panic) (t : Tree) (lexer : Option lexer) :
    ParseOutcome :=
  match e with
  | none => .returned err t lexer
  | some e =>
    match t.lex with
    | none => .crashed .nilLexer t
    | some l =>
      let t1 : Tree := { t with lex := some l.drain }
      .returned (some e) (stopParse t1) t1.lex

/-- The method `parse`; the argument `lex` is the lexer constructor `lex(name, text)`, which
is not part of `parse.go`. -/
def parse (lex : String → String → lexer) (fuel : Nat) (t : Tree) : ParseOutcome :=
  match parseContent fuel (startParse (lex t.name t.text) t) with
  | .ok _ t1 => recover none none (stopParse t1) t1.lex
  | .panic e t1 => recover (some e) none t1 t1.lex
  | .outOfFuel => .outOfFuel

/-- The function `Parse(name, text)`: `parse` on a zero-valued record. -/
def Parse (lex : String → String → lexer) (fuel : Nat) (name text : String) : ParseOutcome :=
  parse lex fuel
    { Root := .nil, name := name, text := text, lex := none, token0 := ⟨itemError, 0, ""⟩,
      token1 := ⟨itemError, 0, ""⟩, token2 := ⟨itemError, 0, ""⟩, peekCount := 0 }

/-- The nodes the grammar rules can return: nil, the leaves with the tag of their variant, and
the containers as the rules fill them. -/
inductive Produced : Node → Prop where
  | nil : Produced .nil
  | text (p : Int) (v : String) : Produced (.Text NodeText p v)
  | brk (p : Int) : Produced (.Break NodeBreak p)
  | inlineCode (p : Int) (v : String) : Produced (.InlineCode NodeInlineCode p v)
  | code (p : Int) (v : String) : Produced (.Code NodeCode p v "" "")
  | thematicBreak (p : Int) : Produced (.ThematicBreak NodeThematicBreak p)
  | emphasis (p : Int) (c : Node) : Produced c → Produced (.Emphasis NodeEmphasis p [c])
  | strong (p : Int) (c : Node) : Produced c → Produced (.Strong NodeStrong p [c])
  | heading (p d : Int) (c : Node) : Produced c → Produced (.Heading NodeHeading p d [c])
  | blockquote (p : Int) (c : Node) : Produced c → Produced (.Blockquote NodeParagraph p [c])
  | paragraph (p : Int) (cs : List Node) :
      (∀ c ∈ cs, Produced c) → (∀ c ∈ cs, c.isNil = false) →
      Produced (.Paragraph NodeParagraph p cs)
  | listItem (p : Int) (cs : List Node) :
      (∀ c ∈ cs, Produced c) → (∀ c ∈ cs, c.isNil = false) →
      Produced (.ListItem NodeListItem p false false cs)
  | list (p : Int) (cs : List Node) :
      (∀ c ∈ cs, Produced c) →
      (∀ c ∈ cs, ∃ q ds, c = .ListItem NodeListItem q false false ds) →
      Produced (.List NodeList p false 1 false cs)

/-- The nodes of a tree: `Subnode n r` holds when `n` is `r` or lies below `r` at any depth. -/
inductive Subnode : Node → Node → Prop where
  | refl (r : Node) : Subnode r r
  | child {c n r : Node} : c ∈ childrenOf n → Subnode n r → Subnode c r

/-- What a call may change in the record apart from the cursor: it keeps the root and keeps an
installed lexer installed. -/
def Frame (t t1 : Tree) : Prop :=
  t1.Root = t.Root ∧ (t.lex.isSome = true → t1.lex.isSome = true)

/-- An outcome that respects the frame and, when the call returns, returns a value with the
property `Q`. -/
def Res.Sound {α : Type} (Q : α → Prop) (t : Tree) : Res α → Prop
  | .ok a t1 => Frame t t1 ∧ Q a
  | .panic _ t1 => Frame t t1
  | .outOfFuel => True

/-- The record of a parse in progress: the root is a Root node tagged `NodeRoot` at position 0
whose children are nodes the grammar rules return. -/
def RootInv (t : Tree) : Prop :=
  ∃ cs, t.Root = .Root NodeRoot 0 cs ∧ ∀ c ∈ cs, Produced c

/-- An outcome of the content loop: the root keeps its shape and an installed lexer stays
installed, whether the loop returns or panics. -/
def Res.RootSound {α : Type} (t : Tree) : Res α → Prop
  | .ok _ t1 => RootInv t1 ∧ (t.lex.isSome = true → t1.lex.isSome = true)
  | .panic _ t1 => RootInv t1 ∧ (t.lex.isSome = true → t1.lex.isSome = true)
  | .outOfFuel => True

/-- The record `Parse` builds, after `startParse` has installed a lexer that holds the tokens
of `"> quoted\n"`. -/
def startedTree : Tree :=
  startParse ⟨quoteTokens⟩
    { Root := .nil, name := "", text := "", lex := none, token0 := ⟨itemError, 0, ""⟩,
      token1 := ⟨itemError, 0, ""⟩, token2 := ⟨itemError, 0, ""⟩, peekCount := 0 }

/-- An opening code-fence, two text runs and end-of-input. -/
def fenceUntilEOF : List item :=
  [⟨itemCode, 0, "```"⟩, ⟨itemStr, 3, "a"⟩, ⟨itemStr, 4, "b"⟩, ⟨itemEOF, 5, ""⟩]

/-- A fenced code block without a break before its closing fence, followed by a text run. -/
def codeThenText : List item :=
  [⟨itemCode, 0, "```"⟩, ⟨itemStr, 3, "code"⟩, ⟨itemCode, 7, "```"⟩, ⟨itemStr, 10, "after"⟩,
    ⟨itemEOF, 15, ""⟩]

/-- The tokens of `"*em*"`. -/
def emTokens : List item :=
  [⟨itemEm, 0, "*"⟩, ⟨itemStr, 1, "em"⟩, ⟨itemEm, 3, "*"⟩, ⟨itemEOF, 4, ""⟩]

/-- Two spaces before a text run. -/
def spacesThenText : List item :=
  [⟨itemSpace, 0, " "⟩, ⟨itemSpace, 1, " "⟩, ⟨itemStr, 2, "x"⟩]

/-- Four space tokens. -/
def fourSpaces : List item :=
  [⟨itemSpace, 0, " "⟩, ⟨itemSpace, 1, " "⟩, ⟨itemSpace, 2, " "⟩, ⟨itemSpace, 3, " "⟩]

/-! ## In-bounds outcomes and the stack -/

/-- An outcome that is not a panic and, when the call returns, satisfies `P`. -/
def Res.Safe {α : Type} (P : α → Tree → Prop) : Res α → Prop
  | .ok a t1 => P a t1
  | .panic _ _ => False
  | .outOfFuel => True

/-- The record `stack` of `parse.go`: the slice `items` and the number `count` of elements in
use. -/
structure stack (α : Type) where
  items : List α
  count : Int

/-- What `pop` and `peek` return: an element, nil for lack of an element, or an index panic. -/
inductive Popped (α : Type) where
  | elem (e : α)
  | nil
  | panic

/-- The zero-valued stack. -/
def stack.empty {α : Type} : stack α := ⟨[], 0⟩

/-- The array read `s.items[i]`. -/
def stack.index {α : Type} (s : stack α) (i : Int) : Popped α :=
  if 0 ≤ i then
    match s.items.get? i.toNat with
    | some e => .elem e
    | none => .panic
  else .panic

/-- The call `push`: `s.items = append(s.items[:s.count], e)` and `s.count++`; `none` is the
slice-bounds panic of `s.items[:s.count]`. -/
def stack.push {α : Type} (s : stack α) (e : α) : Option (stack α) :=
  if 0 ≤ s.count ∧ s.count ≤ s.items.length then
    some ⟨s.items.take s.count.toNat ++ [e], s.count + 1⟩
  else none

/-- The call `pop`, with the stack it leaves. -/
def stack.pop {α : Type} (s : stack α) : Popped α × stack α :=
  if s.count = 0 then (.nil, s)
  else
    let s1 : stack α := { s with count := s.count - 1 }
    (s1.index s1.count, s1)

/-- The call `peek` of the stack. -/
def stack.peek {α : Type} (s : stack α) : Popped α :=
  if s.count = 0 then .nil
  else s.index (s.count - 1)

/-- The call `isEmpty`: `0 == len(s.items)`. -/
def stack.isEmpty {α : Type} (s : stack α) : Bool :=
  decide (0 = s.items.length)

/-- The stacks reached from the empty stack by `push` and `pop` calls. -/
inductive stack.Reached {α : Type} : stack α → Prop where
  | empty : stack.Reached stack.empty
  | push {s s1 : stack α} (e : α) : stack.Reached s → s.push e = some s1 → stack.Reached s1
  | pop {s : stack α} : stack.Reached s → stack.Reached s.pop.2

/-- A heading marker and a space at the end of the input (the tokens of `"# "`). -/
def headingNoText : List item :=
  [⟨itemHeading, 0, "#"⟩, ⟨itemSpace, 1, " "⟩, ⟨itemEOF, 2, ""⟩]

/-- A quote marker and a space at the end of the input (the tokens of `"> "`). -/
def quoteNoText : List item :=
  [⟨itemQuote, 0, ">"⟩, ⟨itemSpace, 1, " "⟩, ⟨itemEOF, 2, ""⟩]

/-- An emphasis marker at the end of the input. -/
def emNoText : List item :=
  [⟨itemEm, 0, "*"⟩, ⟨itemEOF, 1, ""⟩]

/-! ## Token cursor: theorems -/

/-- A successful array read leaves the record unchanged. -/
theorem tokenAt_ok_state {t t1 : Tree} {i : Int} {x : item} (h : tokenAt t i = .ok x t1) :
    t1 = t := by
  unfold tokenAt at h
  split_ifs at h <;> cases h <;> rfl

/-- After `next` returns, at most two tokens are pending and the returned token sits in the slot
the pending count points at. -/
theorem next_pending_bounds {t t1 : Tree} {x : item} (h : next t = .ok x t1) :
    0 ≤ t1.peekCount ∧ t1.peekCount ≤ 2 ∧ tokenAt t1 t1.peekCount = .ok x t1 := by
  unfold next at h
  split at h
  · have e := tokenAt_ok_state h
    subst e
    refine ⟨?_, ?_, h⟩
    · simp only; omega
    · simp only at h ⊢
      unfold tokenAt at h
      split_ifs at h <;> omega
  · split at h
    · cases h
    · have e := tokenAt_ok_state h
      subst e
      have hb : (0:Int) ≤ t.peekCount ∧ t.peekCount ≤ 2 := by
        simp only at h
        unfold tokenAt at h
        split_ifs at h <;> omega
      refine ⟨?_, ?_, h⟩
      · simp only; omega
      · simp only; omega


/-- When `next` returns, the pending count was between 0 and 3 and has gone down by one, or
stayed 0. -/
theorem next_peekCount {t t1 : Tree} {x : item} (h : next t = .ok x t1) :
    0 ≤ t.peekCount ∧ t.peekCount ≤ 3 ∧
      t1.peekCount = (if 0 < t.peekCount then t.peekCount - 1 else 0) := by
  have hb := next_pending_bounds h
  unfold next at h
  split at h
  · have e := tokenAt_ok_state h
    subst e
    simp only at hb ⊢
    omega
  · split at h
    · cases h
    · have e := tokenAt_ok_state h
      subst e
      simp only at hb ⊢
      omega

/-- C1: for every cursor state with a pending count between 0 and 3, if `next` returns `x`, then
`backup` followed by `next` returns `x` again and leaves the lexer as it was (nothing is
pulled), and `peek` issued right after the `backup` returns `x` as well. -/
theorem next_backup_replays (t t1 : Tree) (x : item)
    (_hlo : 0 ≤ t.peekCount) (_hhi : t.peekCount ≤ 3)
    (h : next t = .ok x t1) :
    (∃ t2, next (backup t1) = .ok x t2 ∧ t2.lex = t1.lex) ∧
      peek (backup t1) = .ok x (backup t1) := by
  obtain ⟨h0, h2, hx⟩ := next_pending_bounds h
  constructor
  · refine ⟨t1, ?_, rfl⟩
    unfold next backup
    have : (0:Int) < t1.peekCount + 1 := by omega
    simp only [this, if_true, add_sub_cancel_right]
    exact hx
  · unfold peek backup
    have : (0:Int) < t1.peekCount + 1 := by omega
    simp only [this, if_true, add_sub_cancel_right]
    unfold tokenAt at hx ⊢
    simp only at hx ⊢
    split_ifs at hx ⊢ <;> simp_all

/-- C1 (witness): a fresh cursor over the single token `x`. -/
theorem next_backup_replays_witness :
    ((0 : Int) ≤ (freshTree [tokX]).peekCount ∧ (freshTree [tokX]).peekCount ≤ 3 ∧
      next (freshTree [tokX]) = .ok tokX { freshTree [] with token0 := tokX }) ∧
    ((∃ t2, next (backup { freshTree [] with token0 := tokX }) = .ok tokX t2 ∧
        t2.lex = (some ⟨[]⟩ : Option lexer)) ∧
      peek (backup { freshTree [] with token0 := tokX })
        = .ok tokX (backup { freshTree [] with token0 := tokX })) :=
  ⟨⟨by decide, by decide, rfl⟩,
    next_backup_replays (freshTree [tokX]) { freshTree [] with token0 := tokX } tokX
      (by decide) (by decide) rfl⟩

/-- C2 (amended): for every reachable cursor state with at most two tokens pending in which two
consecutive `next` calls return `a` and then `b`, calling `backup2 a` and then `next` twice
returns `a` and then `b`, and the lexer is as it was (nothing is pulled). -/
theorem backup2_replays (t t1 t2 : Tree) (a b : item) (_hr : Reachable t)
    (hp : t.peekCount ≤ 2)
    (ha : next t = .ok a t1) (hb : next t1 = .ok b t2) :
    ∃ t3 t4, next (backup2 a t2) = .ok a t3 ∧ next t3 = .ok b t4 ∧ t4.lex = t2.lex := by
  obtain ⟨_, _, e1⟩ := next_peekCount ha
  obtain ⟨_, _, e2⟩ := next_peekCount hb
  obtain ⟨_, _, hx⟩ := next_pending_bounds hb
  have hz : t2.peekCount = 0 := by
    split_ifs at e1 e2 <;> omega
  rw [hz] at hx
  refine ⟨{ t2 with token1 := a, peekCount := 1 }, { t2 with token1 := a, peekCount := 0 },
    ?_, ?_, rfl⟩
  · simp [next, backup2, tokenAt]
  · unfold tokenAt at hx
    simp only [if_true] at hx
    cases hx
    simp [next, tokenAt]


/-- C2 (amended, witness): a fresh cursor over `x y`. -/
theorem backup2_replays_witness :
    (Reachable (freshTree [tokX, tokY]) ∧ (freshTree [tokX, tokY]).peekCount ≤ 2 ∧
      next (freshTree [tokX, tokY]) = .ok tokX { freshTree [tokY] with token0 := tokX } ∧
      next { freshTree [tokY] with token0 := tokX }
        = .ok tokY { freshTree [] with token0 := tokY }) ∧
    ∃ t3 t4, next (backup2 tokX { freshTree [] with token0 := tokY }) = .ok tokX t3 ∧
      next t3 = .ok tokY t4 ∧ t4.lex = (some ⟨[]⟩ : Option lexer) :=
  ⟨⟨Reachable.fresh _, by decide, rfl, rfl⟩,
    backup2_replays (freshTree [tokX, tokY]) { freshTree [tokY] with token0 := tokX }
      { freshTree [] with token0 := tokY } tokX tokY (Reachable.fresh _) (by decide) rfl rfl⟩

/-- The cursor `c2Tree` is reached from a fresh cursor over `x y z` by three `next` calls and
`backup3 x y`. -/
theorem c2Tree_reachable : Reachable c2Tree := by
  have h1 : next (freshTree [tokX, tokY, tokZ])
      = .ok tokX { freshTree [tokY, tokZ] with token0 := tokX } := rfl
  have h2 : next { freshTree [tokY, tokZ] with token0 := tokX }
      = .ok tokY { freshTree [tokZ] with token0 := tokY } := rfl
  have h3 : next { freshTree [tokZ] with token0 := tokY }
      = .ok tokZ { freshTree [] with token0 := tokZ } := rfl
  exact Reachable.backup3 tokX tokY
    (Reachable.next (Reachable.next (Reachable.next (Reachable.fresh _) h1) h2) h3)

/-- C2 (counterexample): from the reachable cursor `c2Tree` (three tokens pending) two `next`
calls return `x` and then `y`; after `backup2 x` the two `next` calls return `x` and then `z`,
not `y`. -/
theorem backup2_replays_counterexample :
    Reachable c2Tree ∧
    next c2Tree = .ok tokX { c2Tree with peekCount := 2 } ∧
    next { c2Tree with peekCount := 2 } = .ok tokY { c2Tree with peekCount := 1 } ∧
    next (backup2 tokX { c2Tree with peekCount := 1 })
      = .ok tokX { c2Tree with token1 := tokX, peekCount := 1 } ∧
    next { c2Tree with token1 := tokX, peekCount := 1 }
      = .ok tokZ { c2Tree with token1 := tokX, peekCount := 0 } ∧
    tokZ ≠ tokY :=
  ⟨c2Tree_reachable, rfl, rfl, rfl, rfl, by decide⟩

/-- C3: for every cursor state in which three consecutive `next` calls return `a`, `b`, `c`,
calling `backup3 a b` and then `next` three times returns `a`, `b`, `c` in that order, and the
lexer is as it was (nothing is pulled). -/
theorem backup3_replays (t t1 t2 t3 : Tree) (a b c : item)
    (ha : next t = .ok a t1) (hb : next t1 = .ok b t2) (hc : next t2 = .ok c t3) :
    ∃ u1 u2 u3, next (backup3 a b t3) = .ok a u1 ∧ next u1 = .ok b u2 ∧
      next u2 = .ok c u3 ∧ u3.lex = t3.lex := by
  obtain ⟨_, _, e1⟩ := next_peekCount ha
  obtain ⟨_, _, e2⟩ := next_peekCount hb
  obtain ⟨_, _, e3⟩ := next_peekCount hc
  obtain ⟨_, _, hx⟩ := next_pending_bounds hc
  have hz : t3.peekCount = 0 := by
    split_ifs at e1 e2 e3 <;> omega
  rw [hz] at hx
  unfold tokenAt at hx
  simp only [if_true] at hx
  cases hx
  refine ⟨{ t3 with token1 := b, token2 := a, peekCount := 2 },
    { t3 with token1 := b, token2 := a, peekCount := 1 },
    { t3 with token1 := b, token2 := a, peekCount := 0 }, ?_, ?_, ?_, rfl⟩
  · simp [next, backup3, tokenAt]
  · simp [next, tokenAt]
  · simp [next, tokenAt]


/-- C3 (witness): a fresh cursor over `x y z`. -/
theorem backup3_replays_witness :
    (next (freshTree [tokX, tokY, tokZ]) = .ok tokX { freshTree [tokY, tokZ] with token0 := tokX } ∧
      next { freshTree [tokY, tokZ] with token0 := tokX }
        = .ok tokY { freshTree [tokZ] with token0 := tokY } ∧
      next { freshTree [tokZ] with token0 := tokY }
        = .ok tokZ { freshTree [] with token0 := tokZ }) ∧
    ∃ u1 u2 u3, next (backup3 tokX tokY { freshTree [] with token0 := tokZ }) = .ok tokX u1 ∧
      next u1 = .ok tokY u2 ∧ next u2 = .ok tokZ u3 ∧ u3.lex = (some ⟨[]⟩ : Option lexer) :=
  ⟨⟨rfl, rfl, rfl⟩,
    backup3_replays (freshTree [tokX, tokY, tokZ]) { freshTree [tokY, tokZ] with token0 := tokX }
      { freshTree [tokZ] with token0 := tokY } { freshTree [] with token0 := tokZ }
      tokX tokY tokZ rfl rfl rfl⟩

/-- A lexer that has delivered `c` tokens delivers the token at position `c` next. -/
theorem nextItem_drop (items : List item) (c : Nat) :
    (lexer.mk (items.drop c)).nextItem = (streamAt items c, ⟨items.drop (c + 1)⟩) := by
  unfold lexer.nextItem streamAt
  rcases hd : items.drop c with _ | ⟨x, rest⟩
  · have hlen : items.length ≤ c := List.drop_eq_nil_iff.mp hd
    have h1 : items.drop (c + 1) = [] := List.drop_eq_nil_iff.mpr (by omega)
    simp [h1, List.getElem?_eq_none hlen]
  · have hlt : c < items.length := by
      by_contra hc
      have : items.drop c = [] := List.drop_eq_nil_iff.mpr (by omega)
      rw [this] at hd
      cases hd
    have h2 := List.drop_eq_getElem_cons hlt
    rw [hd] at h2
    injection h2 with hx hrest
    simp [hx, hrest, List.getElem?_eq_getElem hlt]

/-- The call `peek` returns the token at the current position and does not advance. -/
theorem peek_cursorAt {items : List item} {c : Nat} {t : Tree} (h : CursorAt items c t) :
    ∃ t1, peek t = .ok (streamAt items c) t1 ∧ CursorAt items c t1 := by
  rcases h with ⟨hp, hl⟩ | ⟨hp, hl, h0⟩
  · refine ⟨{ t with peekCount := 1, token0 := streamAt items c, lex := some ⟨items.drop (c + 1)⟩ },
      ?_, Or.inr ⟨rfl, rfl, rfl⟩⟩
    unfold peek
    simp [hp, hl, nextItem_drop]
  · refine ⟨t, ?_, Or.inr ⟨hp, hl, h0⟩⟩
    unfold peek
    simp [hp, tokenAt, h0]

/-- The call `next` returns the token at the current position and advances by one. -/
theorem next_cursorAt {items : List item} {c : Nat} {t : Tree} (h : CursorAt items c t) :
    ∃ t1, next t = .ok (streamAt items c) t1 ∧ CursorAt items (c + 1) t1 := by
  rcases h with ⟨hp, hl⟩ | ⟨hp, hl, h0⟩
  · refine ⟨{ t with token0 := streamAt items c, lex := some ⟨items.drop (c + 1)⟩ }, ?_,
      Or.inl ⟨hp, rfl⟩⟩
    unfold next
    simp [hp, hl, nextItem_drop, tokenAt]
  · refine ⟨{ t with peekCount := 0 }, ?_, Or.inl ⟨rfl, hl⟩⟩
    unfold next
    simp [hp, tokenAt, h0]

/-- A run of `peek` and `next` calls returns and records the prescribed trace. -/
theorem runOps_cursorAt (items : List item) (ops : List CursorOp) :
    ∀ (c : Nat) (t : Tree), CursorAt items c t →
      ∃ t1, runOps ops t = .ok (specTrace items c ops) t1 := by
  induction ops with
  | nil => intro c t _; exact ⟨t, rfl⟩
  | cons op ops ih =>
    intro c t h
    cases op with
    | peek =>
      obtain ⟨t1, h1, hc⟩ := peek_cursorAt h
      obtain ⟨t2, h2⟩ := ih c t1 hc
      exact ⟨t2, by simp [runOps, specTrace, h1, h2, Res.bind]⟩
    | next =>
      obtain ⟨t1, h1, hc⟩ := next_cursorAt h
      obtain ⟨t2, h2⟩ := ih (c + 1) t1 hc
      exact ⟨t2, by simp [runOps, specTrace, h1, h2, Res.bind]⟩

/-- In the prescribed trace the `next` calls return consecutive tokens of the stream. -/
theorem nextResults_specTrace (items : List item) (ops : List CursorOp) :
    ∀ c : Nat, nextResults (specTrace items c ops)
      = (List.range (ops.count CursorOp.next)).map fun i => streamAt items (c + i) := by
  induction ops with
  | nil => intro c; simp [specTrace, nextResults]
  | cons op ops ih =>
    intro c
    cases op with
    | peek =>
      have := ih c
      simp only [nextResults] at this
      simp [specTrace, nextResults, this]
    | next =>
      have := ih (c + 1)
      simp only [nextResults] at this
      simp [specTrace, nextResults, this, List.range_succ_eq_map, Nat.add_assoc, Nat.add_comm 1]

/-- In the prescribed trace the first `next` call returns the token at the current position. -/
theorem followingNext_specTrace (items : List item) (ops : List CursorOp) :
    ∀ (c : Nat) (y : item), followingNext (specTrace items c ops) = some y →
      y = streamAt items c := by
  induction ops with
  | nil => intro c y h; simp [specTrace, followingNext] at h
  | cons op ops ih =>
    intro c y h
    cases op with
    | peek => exact ih c y (by simpa [specTrace, followingNext] using h)
    | next => simpa [specTrace, followingNext, eq_comm] using h

/-- Every suffix of a prescribed trace is a prescribed trace. -/
theorem specTrace_split (items : List item) (ops : List CursorOp) :
    ∀ (c : Nat) (pre post : List (CursorOp × item)) (p : CursorOp × item),
      specTrace items c ops = pre ++ p :: post →
      ∃ (c1 : Nat) (ops1 : List CursorOp),
        p :: post = specTrace items c1 (p.1 :: ops1) := by
  induction ops with
  | nil => intro c pre post p h; simp [specTrace] at h
  | cons op ops ih =>
    intro c pre post p h
    cases pre with
    | nil =>
      cases op with
      | peek =>
        simp only [specTrace, List.nil_append, List.cons.injEq] at h
        obtain ⟨rfl, rfl⟩ := h
        exact ⟨c, ops, rfl⟩
      | next =>
        simp only [specTrace, List.nil_append, List.cons.injEq] at h
        obtain ⟨rfl, rfl⟩ := h
        exact ⟨c, ops, rfl⟩
    | cons q pre =>
      cases op with
      | peek =>
        simp only [specTrace, List.cons_append, List.cons.injEq] at h
        exact ih c pre post p h.2
      | next =>
        simp only [specTrace, List.cons_append, List.cons.injEq] at h
        exact ih (c + 1) pre post p h.2

/-- C4: on a cursor with nothing pending over a token stream every finite sequence of `peek`
and `next` calls returns; the `i`-th `next` call returns the `i`-th token of the stream, and
every `peek` returns the token that the following `next` returns. -/
theorem peek_next_stream (items : List item) (ops : List CursorOp) (t : Tree)
    (hp : t.peekCount = 0) (hl : t.lex = some ⟨items⟩) :
    ∃ (tr : List (CursorOp × item)) (t1 : Tree),
      runOps ops t = .ok tr t1 ∧
      tr.map Prod.fst = ops ∧
      nextResults tr = (List.range (ops.count CursorOp.next)).map (streamAt items) ∧
      ∀ (pre post : List (CursorOp × item)) (x y : item),
        tr = pre ++ (CursorOp.peek, x) :: post → followingNext post = some y → x = y := by
  obtain ⟨t1, h⟩ := runOps_cursorAt items ops 0 t (Or.inl ⟨hp, by simpa using hl⟩)
  refine ⟨_, t1, h, ?_, ?_, ?_⟩
  · clear h
    generalize 0 = c
    induction ops generalizing c with
    | nil => rfl
    | cons op ops ih => cases op <;> simp [specTrace, ih]
  · simpa using nextResults_specTrace items ops 0
  · intro pre post x y hsplit hy
    obtain ⟨c1, ops1, h1⟩ := specTrace_split items ops 0 pre post _ hsplit
    simp only [specTrace, List.cons.injEq, Prod.mk.injEq, true_and] at h1
    obtain ⟨hx, hpost⟩ := h1
    rw [hpost] at hy
    rw [hx]
    exact (followingNext_specTrace items ops1 c1 y hy).symm

/-- C4 (witness): `peek`, `next`, `next` on a fresh cursor over `x y`. -/
theorem peek_next_stream_witness :
    ((freshTree [tokX, tokY]).peekCount = 0 ∧
      (freshTree [tokX, tokY]).lex = some ⟨[tokX, tokY]⟩) ∧
    ∃ (tr : List (CursorOp × item)) (t1 : Tree),
      runOps [CursorOp.peek, CursorOp.next, CursorOp.next] (freshTree [tokX, tokY]) = .ok tr t1 ∧
      tr.map Prod.fst = [CursorOp.peek, CursorOp.next, CursorOp.next] ∧
      nextResults tr
        = (List.range ([CursorOp.peek, CursorOp.next, CursorOp.next].count CursorOp.next)).map
            (streamAt [tokX, tokY]) ∧
      ∀ (pre post : List (CursorOp × item)) (x y : item),
        tr = pre ++ (CursorOp.peek, x) :: post → followingNext post = some y → x = y :=
  ⟨⟨rfl, rfl⟩,
    peek_next_stream [tokX, tokY] [CursorOp.peek, CursorOp.next, CursorOp.next]
      (freshTree [tokX, tokY]) rfl rfl⟩

/-! ## Grammar rules: theorems -/

/-- The paragraph loop returns a node exactly when the inline engine yields a run of fewer
nodes than the fuel allows; the node is the paragraph extended by the run and trimmed. -/
theorem parseParagraphLoop_iff (ph : Tree → Res Node) (ty : NodeType) (p : Int) :
    ∀ (fuel : Nat) (cs0 : List Node) (t t' : Tree) (n : Node),
      parseParagraphLoop ph fuel (.Paragraph ty p cs0) t = .ok n t' ↔
        ∃ cs, InlineRun ph t cs t' ∧ cs.length < fuel ∧
          n = (Node.Paragraph ty p (cs0 ++ cs)).trim := by
  intro fuel
  induction fuel with
  | zero =>
    intro cs0 t t' n
    simp [parseParagraphLoop]
  | succ fuel ih =>
    intro cs0 t t' n
    rw [parseParagraphLoop]
    constructor
    · intro h
      rcases hph : ph t with ⟨c, t1⟩ | ⟨e, t1⟩ | _
      · rw [hph] at h
        simp only [Res.bind] at h
        by_cases hc : c.isNil = true
        · simp only [hc, if_true] at h
          cases h
          exact ⟨[], InlineRun.stop hph hc, by simp, by simp⟩
        · simp only [hc, if_false, Node.append] at h
          obtain ⟨cs, hrun, hlen, hn⟩ := (ih _ _ _ _).mp h
          refine ⟨c :: cs, InlineRun.step hph (by simpa using hc) hrun, by simp; omega, ?_⟩
          simpa using hn
      · rw [hph] at h; cases h
      · rw [hph] at h; cases h
    · rintro ⟨cs, hrun, hlen, hn⟩
      cases hrun with
      | stop hph hc =>
        simp [hph, Res.bind, hc, hn]
      | step hph hc hrun =>
        simp only [hph, Res.bind, hc, Node.append]
        simp only [List.length_cons] at hlen
        exact (ih _ _ _ _).mpr ⟨_, hrun, by omega, by simpa using hn⟩

/-- After `peek` returns a token, the token is pending: `peek` returns it again and changes
nothing. -/
theorem peek_idem {t t1 : Tree} {x : item} (h : peek t = .ok x t1) : peek t1 = .ok x t1 := by
  unfold peek at h
  split at h
  · have e := tokenAt_ok_state h
    subst e
    unfold peek
    simp [*]
  · rcases hl : t.lex with _ | l
    · simp [hl] at h
    · simp only [hl] at h
      cases h
      simp [peek, tokenAt]


/-- A sequenced run returns exactly when both parts return. -/
theorem Res.bind_eq_ok {α β : Type} (r : Res α) (k : α → Tree → Res β) (b : β) (t' : Tree) :
    r.bind k = .ok b t' ↔ ∃ a t1, r = .ok a t1 ∧ k a t1 = .ok b t' := by
  cases r with
  | ok a t =>
    simp only [Res.bind, Res.ok.injEq]
    constructor
    · intro h
      exact ⟨a, t, ⟨rfl, rfl⟩, h⟩
    · rintro ⟨a1, t1, ⟨rfl, rfl⟩, h⟩
      exact h
  | panic e t => simp [Res.bind]
  | outOfFuel => simp [Res.bind]

/-- The inline engine yields no node only by peeking a token of a kind it builds no node
for. -/
theorem parseStaticPhrasingContent_nil {fuel : Nat} {t t1 : Tree}
    (h : parseStaticPhrasingContent fuel t = .ok .nil t1) :
    ∃ token, peek t = .ok token t1 ∧ token.typ ∉ inlineKinds := by
  cases fuel with
  | zero => simp [parseStaticPhrasingContent] at h
  | succ fuel =>
    rw [parseStaticPhrasingContent, Res.bind_eq_ok] at h
    obtain ⟨token, t2, hp, h⟩ := h
    split at h
    · simp [parseText, Res.bind_eq_ok] at h
    · simp [parseEm, Res.bind_eq_ok] at h
    · simp [parseStrong, Res.bind_eq_ok] at h
    · simp [parseInlineCode, Res.bind_eq_ok] at h
    · simp [parseBreak, Res.bind_eq_ok] at h
    · cases h
      refine ⟨token, hp, ?_⟩
      simp only [inlineKinds, List.mem_cons, List.mem_singleton, List.not_mem_nil, or_false]
      rintro (h1 | h1 | h1 | h1 | h1) <;> simp_all


/-- C5: parsing the stream `[text-run s, break, end-of-input]` yields a Root with exactly one
child, a Paragraph whose children after trim are exactly the Text leaf with literal `s`; in
general the paragraph rule returns exactly when the inline engine yields a run of nodes within
the fuel, its children before trim are the successive non-nil results of the inline engine in
call order up to the first call that yields no node, and that call leaves its token pending
(unconsumed). -/
theorem parseParagraph_children (f fuel : Nat) (s : String) (p0 p1 p2 : Int) (v1 v2 : String) :
    parsedRoot (fuel + 5) [⟨itemStr, p0, s⟩, ⟨itemBreak, p1, v1⟩, ⟨itemEOF, p2, v2⟩]
        = some (.Root NodeRoot 0 [.Paragraph NodeParagraph p0 [.Text NodeText p0 s]]) ∧
    (∀ (t t' : Tree) (n : Node),
      parseParagraph (parsePhrasingContent f) fuel t = .ok n t' ↔
        ∃ token t1 cs, peek t = .ok token t1 ∧ InlineRun (parsePhrasingContent f) t1 cs t' ∧
          cs.length < fuel ∧ n = (Node.Paragraph NodeParagraph token.pos cs).trim) ∧
    (∀ (t t' : Tree), parsePhrasingContent f t = .ok .nil t' →
        ∃ token, peek t = .ok token t' ∧ peek t' = .ok token t' ∧ token.typ ∉ inlineKinds) := by
  refine ⟨rfl, ?_, ?_⟩
  · intro t t' n
    unfold parseParagraph
    rw [Res.bind_eq_ok]
    constructor
    · rintro ⟨token, t1, hp, h⟩
      obtain ⟨cs, hrun, hlen, hn⟩ := (parseParagraphLoop_iff _ _ _ _ _ _ _ _).mp h
      exact ⟨token, t1, cs, hp, hrun, hlen, by simpa using hn⟩
    · rintro ⟨token, t1, cs, hp, hrun, hlen, hn⟩
      exact ⟨token, t1, hp, (parseParagraphLoop_iff _ _ _ _ _ _ _ _).mpr ⟨cs, hrun, hlen, by simpa using hn⟩⟩
  · intro t t' h
    obtain ⟨token, hp, hk⟩ := parseStaticPhrasingContent_nil h
    exact ⟨token, hp, peek_idem hp, hk⟩

/-- C6 (evaluation): after a heading marker and one space the heading rule returns the Heading
with the Text leaf as only child; after a heading marker and two spaces it consumes the marker
and the first space only, returns a Heading whose only child is nil, and leaves the second
space pending. -/
theorem parseHeading_spaces (m : Nat) (s : String) :
    parseBlockContent (m + 2) 0
        (freshTree [⟨itemHeading, 0, "#"⟩, ⟨itemSpace, 1, " "⟩, ⟨itemStr, 2, s⟩])
      = .ok (.Heading NodeHeading 0 1 [.Text NodeText 2 s])
          { freshTree [] with token0 := ⟨itemStr, 2, s⟩ } ∧
    parseBlockContent (m + 2) 0 (freshTree headingTwoSpaces)
      = .ok (.Heading NodeHeading 0 1 [.nil])
          { freshTree [⟨itemStr, 3, "Title"⟩, ⟨itemBreak, 8, "\n"⟩, ⟨itemEOF, 9, ""⟩] with
            token0 := ⟨itemSpace, 2, " "⟩, peekCount := 1 } :=
  ⟨rfl, rfl⟩

/-- C7 (counterexample): for a heading marker of seven characters the heading rule produces
depth 7, which is not in the range 1 to 6. -/
theorem parseHeading_depth_counterexample :
    parseBlockContent 2 0 (freshTree headingSevenMarks)
      = .ok (.Heading NodeHeading 0 7 [.Text NodeText 8 "Title"])
          { freshTree [⟨itemBreak, 13, "\n"⟩, ⟨itemEOF, 14, ""⟩] with
            token0 := ⟨itemStr, 8, "Title"⟩ } ∧
    ¬ ((7 : Int) ≤ 6) :=
  ⟨rfl, by decide⟩

/-- C7 (amended): for every heading-marker token the depth of the Heading node the heading rule
produces is the byte length of the marker literal, unclamped, so it lies between 1 and 6
exactly when the literal has 1 to 6 bytes. -/
theorem parseHeading_depth (ph : Tree → Res Node) (t t1 t2 t3 : Tree) (tok sp : item) (c : Node)
    (_htyp : tok.typ = itemHeading)
    (h1 : next t = .ok tok t1) (h2 : next t1 = .ok sp t2) (h3 : ph t2 = .ok c t3) :
    parseHeading ph t = .ok (.Heading NodeHeading tok.pos (len tok.val) [c]) t3 ∧
    ((1 ≤ len tok.val ∧ len tok.val ≤ 6) ↔
      (1 ≤ tok.val.utf8ByteSize ∧ tok.val.utf8ByteSize ≤ 6)) := by
  constructor
  · simp [parseHeading, Res.bind, h1, h2, h3]
  · simp [len]

/-- C7 (amended, witness): the marker `##` before a space and a text run. -/
theorem parseHeading_depth_witness :
    ((⟨itemHeading, 0, "##"⟩ : item).typ = itemHeading ∧
      next (freshTree [⟨itemHeading, 0, "##"⟩, ⟨itemSpace, 2, " "⟩, ⟨itemStr, 3, "Title"⟩])
        = .ok ⟨itemHeading, 0, "##"⟩
            { freshTree [⟨itemSpace, 2, " "⟩, ⟨itemStr, 3, "Title"⟩] with
              token0 := ⟨itemHeading, 0, "##"⟩ } ∧
      next { freshTree [⟨itemSpace, 2, " "⟩, ⟨itemStr, 3, "Title"⟩] with
              token0 := ⟨itemHeading, 0, "##"⟩ }
        = .ok ⟨itemSpace, 2, " "⟩
            { freshTree [⟨itemStr, 3, "Title"⟩] with token0 := ⟨itemSpace, 2, " "⟩ } ∧
      parsePhrasingContent 1
          { freshTree [⟨itemStr, 3, "Title"⟩] with token0 := ⟨itemSpace, 2, " "⟩ }
        = .ok (.Text NodeText 3 "Title") { freshTree [] with token0 := ⟨itemStr, 3, "Title"⟩ }) ∧
    (parseHeading (parsePhrasingContent 1)
        (freshTree [⟨itemHeading, 0, "##"⟩, ⟨itemSpace, 2, " "⟩, ⟨itemStr, 3, "Title"⟩])
      = .ok (.Heading NodeHeading (0 : Int) (len "##") [.Text NodeText 3 "Title"])
          { freshTree [] with token0 := ⟨itemStr, 3, "Title"⟩ } ∧
      ((1 ≤ len "##" ∧ len "##" ≤ 6) ↔
        (1 ≤ "##".utf8ByteSize ∧ "##".utf8ByteSize ≤ 6))) :=
  ⟨⟨rfl, rfl, rfl, rfl⟩,
    parseHeading_depth (parsePhrasingContent 1)
      (freshTree [⟨itemHeading, 0, "##"⟩, ⟨itemSpace, 2, " "⟩, ⟨itemStr, 3, "Title"⟩])
      { freshTree [⟨itemSpace, 2, " "⟩, ⟨itemStr, 3, "Title"⟩] with
        token0 := ⟨itemHeading, 0, "##"⟩ }
      { freshTree [⟨itemStr, 3, "Title"⟩] with token0 := ⟨itemSpace, 2, " "⟩ }
      { freshTree [] with token0 := ⟨itemStr, 3, "Title"⟩ }
      ⟨itemHeading, 0, "##"⟩ ⟨itemSpace, 2, " "⟩ (.Text NodeText 3 "Title") rfl rfl rfl rfl⟩

/-- C8: when the next two tokens are a quote marker and a space and the block engine (indent 0)
run on what follows returns the block `c`, the blockquote rule returns a Blockquote container
with exactly one child, `c`, and leaves the cursor where that nested call left it. -/
theorem parseBlockquote_single_child (fuel : Nat) (t t1 t2 t3 : Tree) (q sp : item) (c : Node)
    (_hq : q.typ = itemQuote) (_hsp : sp.typ = itemSpace)
    (h1 : next t = .ok q t1) (h2 : next t1 = .ok sp t2)
    (h3 : parseBlockContent fuel 0 t2 = .ok c t3) :
    ∃ n, parseBlockquote (parseBlockContent fuel 0) t = .ok n t3 ∧
      n.variantTag = some NodeBlockquote ∧ childrenOf n = [c] := by
  refine ⟨.Blockquote NodeParagraph q.pos [c], ?_, rfl, rfl⟩
  simp [parseBlockquote, Res.bind, h1, h2, h3]

/-- C8 (witness): the tokens of `"> quoted\n"` give Blockquote -> Paragraph -> Text("quoted"). -/
theorem parseBlockquote_single_child_witness :
    ((⟨itemQuote, 0, ">"⟩ : item).typ = itemQuote ∧ (⟨itemSpace, 1, " "⟩ : item).typ = itemSpace ∧
      next (freshTree quoteTokens)
        = .ok ⟨itemQuote, 0, ">"⟩
            { freshTree (quoteTokens.drop 1) with token0 := ⟨itemQuote, 0, ">"⟩ } ∧
      next { freshTree (quoteTokens.drop 1) with token0 := ⟨itemQuote, 0, ">"⟩ }
        = .ok ⟨itemSpace, 1, " "⟩
            { freshTree (quoteTokens.drop 2) with token0 := ⟨itemSpace, 1, " "⟩ } ∧
      parseBlockContent 4 0
          { freshTree (quoteTokens.drop 2) with token0 := ⟨itemSpace, 1, " "⟩ }
        = .ok (.Paragraph NodeParagraph 2 [.Text NodeText 2 "quoted"])
            { freshTree [] with token0 := ⟨itemEOF, 9, ""⟩, peekCount := 1 }) ∧
    ∃ n, parseBlockquote (parseBlockContent 4 0) (freshTree quoteTokens)
        = .ok n { freshTree [] with token0 := ⟨itemEOF, 9, ""⟩, peekCount := 1 } ∧
      n.variantTag = some NodeBlockquote ∧
      childrenOf n = [.Paragraph NodeParagraph 2 [.Text NodeText 2 "quoted"]] :=
  ⟨⟨rfl, rfl, rfl, rfl, rfl⟩,
    parseBlockquote_single_child 4 (freshTree quoteTokens)
      { freshTree (quoteTokens.drop 1) with token0 := ⟨itemQuote, 0, ">"⟩ }
      { freshTree (quoteTokens.drop 2) with token0 := ⟨itemSpace, 1, " "⟩ }
      { freshTree [] with token0 := ⟨itemEOF, 9, ""⟩, peekCount := 1 }
      ⟨itemQuote, 0, ">"⟩ ⟨itemSpace, 1, " "⟩
      (.Paragraph NodeParagraph 2 [.Text NodeText 2 "quoted"]) rfl rfl rfl rfl rfl⟩

/-- C9 (evaluation): on the tokens of `"> quoted\n"` the block engine returns the node built by
the blockquote rule; it is a Blockquote value whose type tag is `NodeParagraph`, not
`NodeBlockquote`. -/
theorem parseBlockquote_tag :
    parseBlockContent 5 0 (freshTree quoteTokens)
      = .ok (.Blockquote NodeParagraph 0 [.Paragraph NodeParagraph 2 [.Text NodeText 2 "quoted"]])
          { freshTree [] with token0 := ⟨itemEOF, 9, ""⟩, peekCount := 1 } ∧
    (Node.Blockquote NodeParagraph 0
        [.Paragraph NodeParagraph 2 [.Text NodeText 2 "quoted"]]).tag = some NodeParagraph ∧
    (Node.Blockquote NodeParagraph 0
        [.Paragraph NodeParagraph 2 [.Text NodeText 2 "quoted"]]).variantTag
      = some NodeBlockquote :=
  ⟨rfl, rfl, rfl⟩

/-- The list-item loop collects one block when the second call of the block engine yields
no node. -/
theorem parseListItemLoop_one {P : Tree → Res Node} {t0 t1 t2 : Tree} {c1 : Node}
    (fuel : Nat) (ret : Node)
    (h1 : P t0 = .ok c1 t1) (n1 : c1.isNil = false)
    (h2 : P t1 = .ok .nil t2) (hf : 2 ≤ fuel) :
    parseListItemLoop P fuel ret t0 = .ok (ret.append c1) t2 := by
  obtain ⟨g, rfl⟩ : ∃ g, fuel = g + 2 := ⟨fuel - 2, by omega⟩
  have hn : Node.nil.isNil = true := rfl
  simp [parseListItemLoop, Res.bind, h1, n1, h2, hn]

/-- The list-item loop collects two blocks when the third call of the block engine yields
no node. -/
theorem parseListItemLoop_two {P : Tree → Res Node} {t0 t1 t2 t3 : Tree} {c1 c2 : Node}
    (fuel : Nat) (ret : Node)
    (h1 : P t0 = .ok c1 t1) (n1 : c1.isNil = false)
    (h2 : P t1 = .ok c2 t2) (n2 : c2.isNil = false)
    (h3 : P t2 = .ok .nil t3) (hf : 3 ≤ fuel) :
    parseListItemLoop P fuel ret t0 = .ok ((ret.append c1).append c2) t3 := by
  obtain ⟨g, rfl⟩ : ∃ g, fuel = g + 3 := ⟨fuel - 3, by omega⟩
  have hn : Node.nil.isNil = true := rfl
  simp [parseListItemLoop, Res.bind, h1, n1, h2, n2, h3, hn]

/-- The list loop collects one item when the second call of the list-item rule yields no
node. -/
theorem parseListLoop_one {P : Tree → Res Node} {t0 t1 t2 : Tree} {c : Node}
    (itemFuel fuel : Nat) (list : Node)
    (h1 : parseListItem P itemFuel t0 = .ok c t1) (n1 : c.isNil = false)
    (h2 : parseListItem P itemFuel t1 = .ok .nil t2) (hf : 2 ≤ fuel) :
    parseListLoop P itemFuel fuel list t0 = .ok (list.append c) t2 := by
  obtain ⟨g, rfl⟩ : ∃ g, fuel = g + 2 := ⟨fuel - 2, by omega⟩
  have hn : Node.nil.isNil = true := rfl
  simp [parseListLoop, Res.bind, h1, n1, h2, hn]

/-- On a pending list-item marker the block engine enters the list rule, which consumes the
marker and the space and starts its loop with the text run pending. -/
theorem parseBlockContent_list_entry (f indent : Nat) (base : Tree) (l : BulletLine)
    (rest : List item) :
    parseBlockContent (f + 1) indent (pendingTree base l.marker (l.tail rest))
      = parseListLoop (parseBlockContent f 1) f f (.List NodeList l.textPos false 1 false [])
          (pendingTree base ⟨itemStr, l.textPos, l.text⟩
            (⟨itemBreak, l.breakPos, l.breakVal⟩ :: rest)) := by
  cases indent <;> rfl

/-- On a pending text run the list-item rule starts its loop with an empty ListItem. -/
theorem parseListItem_text (P : Tree → Res Node) (f : Nat) (base : Tree) (p : Int) (s : String)
    (rest : List item) :
    parseListItem P f (pendingTree base ⟨itemStr, p, s⟩ rest)
      = parseListItemLoop P f (.ListItem NodeListItem p false false [])
          (pendingTree base ⟨itemStr, p, s⟩ rest) := rfl

/-- On pending end-of-input the list-item rule yields no node. -/
theorem parseListItem_eof (P : Tree → Res Node) (f : Nat) (base : Tree) (p : Int) (s : String) :
    parseListItem P f (pendingTree base ⟨itemEOF, p, s⟩ [])
      = .ok .nil (pendingTree base ⟨itemEOF, p, s⟩ []) := rfl

/-- On pending end-of-input the block engine (indent 1) yields no node. -/
theorem parseBlockContent_eof (f : Nat) (base : Tree) (p : Int) (s : String) :
    parseBlockContent (f + 1) 1 (pendingTree base ⟨itemEOF, p, s⟩ [])
      = .ok .nil (pendingTree base ⟨itemEOF, p, s⟩ []) := rfl

/-- On a text run and a break followed by a list-item marker or end-of-input the block engine
(indent 1) returns the paragraph of the text and leaves the following token pending. -/
theorem parseBlockContent_text_break (f : Nat) (base : Tree) (l : BulletLine) (x : item)
    (rest : List item) (hx : x.typ = itemListItem ∨ x.typ = itemEOF) :
    parseBlockContent (f + 4) 1
        (pendingTree base ⟨itemStr, l.textPos, l.text⟩
          (⟨itemBreak, l.breakPos, l.breakVal⟩ :: x :: rest))
      = .ok l.paragraph (pendingTree base x rest) := by
  obtain ⟨ty, p, v⟩ := x
  simp only at hx
  rcases hx with rfl | rfl <;> rfl


/-- The list of a bullet line is a node. -/
theorem nestedList_isNil (l : BulletLine) (rest : List BulletLine) :
    (nestedList l rest).isNil = false := by
  cases rest <;> rfl

/-- On the tokens of a bullet list with the first marker pending the block engine returns the
nested list and leaves end-of-input pending. -/
theorem parseBlockContent_bullets (ep : Int) (ev : String) (rest : List BulletLine) :
    ∀ (l : BulletLine) (m indent : Nat) (base : Tree),
      parseBlockContent (m + rest.length + 5) indent
          (pendingTree base l.marker (l.tail (bulletTokens rest ep ev)))
        = .ok (nestedList l rest) (pendingTree base ⟨itemEOF, ep, ev⟩ []) := by
  induction rest with
  | nil =>
    intro l m indent base
    cases indent <;> rfl
  | cons l2 rest ih =>
    intro l m indent base
    have hfuel : m + (l2 :: rest).length + 5 = (m + rest.length + 5) + 1 := by
      simp only [List.length_cons]; omega
    rw [hfuel, parseBlockContent_list_entry]
    have hpar : parseBlockContent (m + rest.length + 5) 1
        (pendingTree base ⟨itemStr, l.textPos, l.text⟩
          (⟨itemBreak, l.breakPos, l.breakVal⟩ :: bulletTokens (l2 :: rest) ep ev))
        = .ok l.paragraph (pendingTree base l2.marker (l2.tail (bulletTokens rest ep ev))) := by
      have e : m + rest.length + 5 = (m + rest.length + 1) + 4 := by omega
      rw [e]
      exact parseBlockContent_text_break _ base l l2.marker _ (Or.inl rfl)
    have hend : parseBlockContent (m + rest.length + 5) 1 (pendingTree base ⟨itemEOF, ep, ev⟩ [])
        = .ok .nil (pendingTree base ⟨itemEOF, ep, ev⟩ []) :=
      parseBlockContent_eof _ base ep ev
    have hitem := parseListItemLoop_two (m + rest.length + 5)
      (.ListItem NodeListItem l.textPos false false []) hpar rfl (ih l2 m 1 base)
      (nestedList_isNil l2 rest) hend (by omega)
    have hlist := parseListLoop_one (m + rest.length + 5) (m + rest.length + 5)
      (.List NodeList l.textPos false 1 false [])
      ((parseListItem_text _ _ base l.textPos l.text _).trans hitem) rfl
      (parseListItem_eof _ _ base ep ev) (by omega)
    exact hlist

/-- On a list-item marker the content loop calls the block engine (indent 0), appends its
result to the Root and goes on. -/
theorem parseContentLoop_list (f : Nat) (base : Tree) (l : BulletLine) (rest : List item) :
    parseContentLoop (f + 1) { base with lex := some ⟨l.marker :: l.tail rest⟩, peekCount := 0 }
      = (parseBlockContent f 0 (pendingTree base l.marker (l.tail rest))).bind fun c t3 =>
          parseContentLoop f { t3 with Root := t3.Root.append c } := rfl

/-- On pending end-of-input the content loop stops. -/
theorem parseContentLoop_eof (f : Nat) (base : Tree) (p : Int) (s : String) :
    parseContentLoop (f + 1) (pendingTree base ⟨itemEOF, p, s⟩ [])
      = .ok () (pendingTree base ⟨itemEOF, p, s⟩ []) := rfl

/-- On k >= 1 repetitions of (list-item marker, space, text-run, break) followed by end-of-input
the content loop leaves, with enough fuel, a Root whose only child is the list of the first line:
a List with one ListItem that holds the Paragraph of the first line and, when k >= 2, the list of
the remaining lines. -/
theorem parseContent_bullets (m : Nat) (l : BulletLine) (rest : List BulletLine) (ep : Int)
    (ev : String) :
    parsedRoot (m + rest.length + 6) (bulletTokens (l :: rest) ep ev)
      = some (.Root NodeRoot 0 [nestedList l rest]) := by
  unfold parsedRoot parseContent
  have h := parseContentLoop_list (m + rest.length + 5)
    { freshTree [] with Root := .Root NodeRoot 0 [] } l (bulletTokens rest ep ev)
  have e : ({ freshTree (bulletTokens (l :: rest) ep ev) with Root := .Root NodeRoot 0 [] } : Tree)
      = { ({ freshTree [] with Root := .Root NodeRoot 0 [] } : Tree) with
          lex := some ⟨l.marker :: l.tail (bulletTokens rest ep ev)⟩, peekCount := 0 } := rfl
  rw [e, h, parseBlockContent_bullets]
  simp only [Res.bind]
  have h2 := parseContentLoop_eof (m + rest.length + 4)
    { freshTree [] with Root := .Root NodeRoot 0 [nestedList l rest] } ep ev
  have e2 : ({ pendingTree { freshTree [] with Root := .Root NodeRoot 0 [] } ⟨itemEOF, ep, ev⟩ []
        with Root := (pendingTree { freshTree [] with Root := .Root NodeRoot 0 [] }
          ⟨itemEOF, ep, ev⟩ []).Root.append (nestedList l rest) } : Tree)
      = pendingTree { freshTree [] with Root := .Root NodeRoot 0 [nestedList l rest] }
          ⟨itemEOF, ep, ev⟩ [] := rfl
  rw [e2, h2]
  rfl

/-- C10 (evaluation): on the tokens of `"* item1\n* item2\n"` (k = 2) the parse returns a Root
whose only child is a List with one ListItem child, not two: `parseList` consumes a marker and
a space once, before its item loop, so the second marker is met by the block loop of the first
item and the second line becomes a List nested in that item. -/
theorem parseList_two_items :
    parsedRoot 8 (bulletTokens [bulletItem1, bulletItem2] 16 "")
      = some (.Root NodeRoot 0
          [.List NodeList 2 false 1 false
            [.ListItem NodeListItem 2 false false
              [.Paragraph NodeParagraph 2 [.Text NodeText 2 "item1"],
               .List NodeList 10 false 1 false
                [.ListItem NodeListItem 10 false false
                  [.Paragraph NodeParagraph 10 [.Text NodeText 10 "item2"]]]]]]) ∧
    (childrenOf (.List NodeList 2 false 1 false
            [.ListItem NodeListItem 2 false false
              [.Paragraph NodeParagraph 2 [.Text NodeText 2 "item1"],
               .List NodeList 10 false 1 false
                [.ListItem NodeListItem 10 false false
                  [.Paragraph NodeParagraph 10 [.Text NodeText 10 "item2"]]]]])).length ≠ 2 :=
  ⟨rfl, by decide⟩

/-! ## Termination and lex errors: theorems -/

/-- With a space or lex-error token pending, the list-item rule does not yield nil: it runs out
of fuel or returns an empty ListItem and consumes nothing. -/
theorem parseListItem_stuck (f g : Nat) (base : Tree) (x : item) (rest : List item)
    (hx : x.typ = itemSpace ∨ x.typ = itemError) :
    parseListItem (parseBlockContent f 1) g (pendingTree base x rest) = .outOfFuel ∨
    parseListItem (parseBlockContent f 1) g (pendingTree base x rest)
      = .ok (.ListItem NodeListItem x.pos false false []) (pendingTree base x rest) := by
  obtain ⟨ty, p, v⟩ := x
  simp only at hx
  rcases hx with rfl | rfl
  · cases g with
    | zero => exact Or.inl rfl
    | succ g =>
      cases f with
      | zero => exact Or.inl rfl
      | succ f => exact Or.inr rfl
  · cases g with
    | zero => exact Or.inl rfl
    | succ g =>
      cases f with
      | zero => exact Or.inl rfl
      | succ f => exact Or.inr rfl

/-- With a space or lex-error token pending, the loop of the list rule never returns, whatever
the fuel. -/
theorem parseListLoop_stuck (f g : Nat) (base : Tree) (x : item) (rest : List item)
    (hx : x.typ = itemSpace ∨ x.typ = itemError) :
    ∀ (k : Nat) (list : Node),
      parseListLoop (parseBlockContent f 1) g k list (pendingTree base x rest) = .outOfFuel := by
  intro k
  induction k with
  | zero => intro list; rfl
  | succ k ih =>
    intro list
    rw [parseListLoop]
    rcases parseListItem_stuck f g base x rest hx with h | h
    · rw [h]; rfl
    · rw [h]
      exact ih _

/-- C11 (evaluation): on the tokens of `"* a\n b\n"`, a finite sequence terminated by
end-of-input, `parseContent` returns for no amount of fuel: after the first item the list rule
keeps accumulating empty items although the next token, a space, is not a list-item
construct. -/
theorem parseContent_listThenSpace (fuel : Nat) :
    parseContent fuel (freshTree listThenSpace) = .outOfFuel := by
  rcases fuel with _ | _ | _ | _ | _ | _ | _ | m
  · rfl
  · rfl
  · rfl
  · rfl
  · rfl
  · rfl
  · rfl
  · have h := parseListLoop_stuck (m + 5) (m + 5)
      { freshTree [] with Root := .Root NodeRoot 0 [] } ⟨itemSpace, 4, " "⟩
      [⟨itemStr, 5, "b"⟩, ⟨itemBreak, 6, "\n"⟩, ⟨itemEOF, 7, ""⟩] (Or.inl rfl) (m + 4)
      (.List NodeList 2 false 1 false
        [.ListItem NodeListItem 2 false false [.Paragraph NodeParagraph 2 [.Text NodeText 2 "a"]]])
    have e : parseContent (m + 7) (freshTree listThenSpace)
        = (parseListLoop (parseBlockContent (m + 5) 1) (m + 5) (m + 4)
            (.List NodeList 2 false 1 false
              [.ListItem NodeListItem 2 false false
                [.Paragraph NodeParagraph 2 [.Text NodeText 2 "a"]]])
            (pendingTree { freshTree [] with Root := .Root NodeRoot 0 [] } ⟨itemSpace, 4, " "⟩
              [⟨itemStr, 5, "b"⟩, ⟨itemBreak, 6, "\n"⟩, ⟨itemEOF, 7, ""⟩])).bind
            fun c t3 => parseContentLoop (m + 6) { t3 with Root := t3.Root.append c } := rfl
    rw [e, h]
    rfl


/-- C12 (evaluation): for the prefix list-item marker, space, text run, the parse of the prefix
followed by end-of-input returns the Root with the one-item List, while the parse of the prefix
followed by a lex-error token returns for no amount of fuel. -/
theorem parseContent_lexError :
    (∀ m : Nat, parsedRoot (m + 5) (listPrefixThen ⟨itemEOF, 3, ""⟩)
      = some (.Root NodeRoot 0
          [.List NodeList 2 false 1 false
            [.ListItem NodeListItem 2 false false
              [.Paragraph NodeParagraph 2 [.Text NodeText 2 "a"]]]])) ∧
    (∀ fuel : Nat,
      parseContent fuel (freshTree (listPrefixThen ⟨itemError, 3, "bad"⟩)) = .outOfFuel) := by
  refine ⟨fun m => rfl, fun fuel => ?_⟩
  rcases fuel with _ | _ | _ | _ | _ | _ | m
  · rfl
  · rfl
  · rfl
  · rfl
  · rfl
  · rfl
  · have h := parseListLoop_stuck (m + 4) (m + 4)
      { freshTree [] with Root := .Root NodeRoot 0 [] } ⟨itemError, 3, "bad"⟩ [] (Or.inr rfl)
      (m + 3)
      (.List NodeList 2 false 1 false
        [.ListItem NodeListItem 2 false false [.Paragraph NodeParagraph 2 [.Text NodeText 2 "a"]]])
    have e : parseContent (m + 6) (freshTree (listPrefixThen ⟨itemError, 3, "bad"⟩))
        = (parseListLoop (parseBlockContent (m + 4) 1) (m + 4) (m + 3)
            (.List NodeList 2 false 1 false
              [.ListItem NodeListItem 2 false false
                [.Paragraph NodeParagraph 2 [.Text NodeText 2 "a"]]])
            (pendingTree { freshTree [] with Root := .Root NodeRoot 0 [] }
              ⟨itemError, 3, "bad"⟩ [])).bind
            fun c t3 => parseContentLoop (m + 5) { t3 with Root := t3.Root.append c } := rfl
    rw [e, h]
    rfl

/-! ## Stream view, code rule, inline rules: theorems -/

/-- The call `next` delivers the first upcoming token and leaves the rest upcoming. -/
theorem next_upcoming {t : Tree} {x : item} {xs : List item} (hv : Valid t)
    (hu : upcoming t = x :: xs) :
    ∃ t1, next t = .ok x t1 ∧ Valid t1 ∧ upcoming t1 = xs := by
  obtain ⟨r, n, tx, lx, k0, k1, k2, pc⟩ := t
  obtain ⟨hl, h0, h3⟩ := hv
  simp only at hl h0 h3
  obtain ⟨l, rfl⟩ := Option.isSome_iff_exists.mp hl
  obtain ⟨items⟩ := l
  have hpc : pc = 0 ∨ pc = 1 ∨ pc = 2 ∨ pc = 3 := by omega
  rcases hpc with rfl | rfl | rfl | rfl
  · simp [upcoming] at hu
    subst hu
    exact ⟨{ Root := r, name := n, text := tx, lex := some ⟨xs⟩, token0 := x, token1 := k1, token2 := k2, peekCount := 0 },
      by simp [next, tokenAt, lexer.nextItem], ⟨rfl, by simp, by simp⟩, by simp [upcoming]⟩
  · simp [upcoming] at hu
    obtain ⟨rfl, rfl⟩ := hu
    exact ⟨{ Root := r, name := n, text := tx, lex := some ⟨items⟩, token0 := k0, token1 := k1, token2 := k2, peekCount := 0 },
      by simp [next, tokenAt], ⟨rfl, by simp, by simp⟩, by simp [upcoming]⟩
  · simp [upcoming] at hu
    obtain ⟨rfl, rfl⟩ := hu
    exact ⟨{ Root := r, name := n, text := tx, lex := some ⟨items⟩, token0 := k0, token1 := k1, token2 := k2, peekCount := 1 },
      by simp [next, tokenAt], ⟨rfl, by simp, by simp⟩, by simp [upcoming]⟩
  · simp [upcoming] at hu
    obtain ⟨rfl, rfl⟩ := hu
    exact ⟨{ Root := r, name := n, text := tx, lex := some ⟨items⟩, token0 := k0, token1 := k1, token2 := k2, peekCount := 2 },
      by simp [next, tokenAt], ⟨rfl, by simp, by simp⟩, by simp [upcoming]⟩

/-- The call `peek` returns the first upcoming token and leaves all tokens upcoming. -/
theorem peek_upcoming {t : Tree} {x : item} {xs : List item} (hv : Valid t)
    (hu : upcoming t = x :: xs) :
    ∃ t1, peek t = .ok x t1 ∧ Valid t1 ∧ upcoming t1 = x :: xs := by
  obtain ⟨r, n, tx, lx, k0, k1, k2, pc⟩ := t
  obtain ⟨hl, h0, h3⟩ := hv
  simp only at hl h0 h3
  obtain ⟨l, rfl⟩ := Option.isSome_iff_exists.mp hl
  obtain ⟨items⟩ := l
  have hpc : pc = 0 ∨ pc = 1 ∨ pc = 2 ∨ pc = 3 := by omega
  rcases hpc with rfl | rfl | rfl | rfl
  · simp [upcoming] at hu
    subst hu
    exact ⟨{ Root := r, name := n, text := tx, lex := some ⟨xs⟩, token0 := x, token1 := k1, token2 := k2, peekCount := 1 },
      by simp [peek, lexer.nextItem], ⟨rfl, by simp, by simp⟩, by simp [upcoming]⟩
  · simp [upcoming] at hu
    obtain ⟨rfl, rfl⟩ := hu
    exact ⟨{ Root := r, name := n, text := tx, lex := some ⟨items⟩, token0 := k0, token1 := k1, token2 := k2, peekCount := 1 },
      by simp [peek, tokenAt], ⟨rfl, by simp, by simp⟩, by simp [upcoming]⟩
  · simp [upcoming] at hu
    obtain ⟨rfl, rfl⟩ := hu
    exact ⟨{ Root := r, name := n, text := tx, lex := some ⟨items⟩, token0 := k0, token1 := k1, token2 := k2, peekCount := 2 },
      by simp [peek, tokenAt], ⟨rfl, by simp, by simp⟩, by simp [upcoming]⟩
  · simp [upcoming] at hu
    obtain ⟨rfl, rfl⟩ := hu
    exact ⟨{ Root := r, name := n, text := tx, lex := some ⟨items⟩, token0 := k0, token1 := k1, token2 := k2, peekCount := 3 },
      by simp [peek, tokenAt], ⟨rfl, by simp, by simp⟩, by simp [upcoming]⟩

/-- With nothing upcoming, `peek` pulls end-of-input from the drained lexer and leaves it
pending. -/
theorem peek_upcoming_nil {t : Tree} (hv : Valid t) (hu : upcoming t = []) :
    ∃ t1, peek t = .ok eofItem t1 ∧ Valid t1 ∧ upcoming t1 = [eofItem] := by
  obtain ⟨r, n, tx, lx, k0, k1, k2, pc⟩ := t
  obtain ⟨hl, h0, h3⟩ := hv
  simp only at hl h0 h3
  obtain ⟨l, rfl⟩ := Option.isSome_iff_exists.mp hl
  obtain ⟨items⟩ := l
  have hpc : pc = 0 ∨ pc = 1 ∨ pc = 2 ∨ pc = 3 := by omega
  rcases hpc with rfl | rfl | rfl | rfl
  · simp [upcoming] at hu
    subst hu
    exact ⟨{ Root := r, name := n, text := tx, lex := some ⟨[]⟩, token0 := eofItem, token1 := k1, token2 := k2, peekCount := 1 },
      by simp [peek, lexer.nextItem], ⟨rfl, by simp, by simp⟩, by simp [upcoming]⟩
  · simp [upcoming] at hu
  · simp [upcoming] at hu
  · simp [upcoming] at hu

/-- The loop of the code rule stops on a code-fence or end-of-input token. -/
theorem parseCodeLoop_stop (fuel : Nat) (closer : item) (code : String) (t : Tree)
    (hc : closer.typ = itemCode ∨ closer.typ = itemEOF) :
    parseCodeLoop (fuel + 1) closer code t = .ok code t := by
  rw [parseCodeLoop]
  rcases hc with h | h <;> simp [h]

/-- The loop of the code rule appends the literals of the content tokens in order and stops
after consuming the closing token. -/
theorem parseCodeLoop_content (closer : item) (rest : List item)
    (hc : closer.typ = itemCode ∨ closer.typ = itemEOF) :
    ∀ (cs : List item) (token : item) (code : String) (t : Tree) (fuel : Nat),
      Valid t → upcoming t = cs ++ closer :: rest →
      (∀ c ∈ token :: cs, c.typ ≠ itemCode ∧ c.typ ≠ itemBreak ∧ c.typ ≠ itemEOF) →
      cs.length + 2 ≤ fuel →
      ∃ t1, parseCodeLoop fuel token code t
          = .ok ((token :: cs).foldl (fun acc c => acc ++ c.val) code) t1 ∧
        Valid t1 ∧ upcoming t1 = rest := by
  intro cs
  induction cs with
  | nil =>
    intro token code t fuel hv hu hk hf
    obtain ⟨g, rfl⟩ : ∃ g, fuel = g + 2 := ⟨fuel - 2, by omega⟩
    obtain ⟨h1, h2, h3⟩ := hk token (List.mem_cons_self _ _)
    obtain ⟨t1, hn, hv1, hu1⟩ := next_upcoming hv (by simpa using hu)
    refine ⟨t1, ?_, hv1, hu1⟩
    rw [parseCodeLoop]
    simp [Ne.symm h1, Ne.symm h2, Ne.symm h3, hn, Res.bind, parseCodeLoop_stop _ _ _ _ hc]
  | cons c cs ih =>
    intro token code t fuel hv hu hk hf
    obtain ⟨g, rfl⟩ : ∃ g, fuel = g + 1 := ⟨fuel - 1, by simp at hf; omega⟩
    obtain ⟨h1, h2, h3⟩ := hk token (List.mem_cons_self _ _)
    obtain ⟨t1, hn, hv1, hu1⟩ := next_upcoming hv (by simpa using hu)
    obtain ⟨t2, hl, hv2, hu2⟩ := ih c (code ++ token.val) t1 g hv1 hu1
      (fun x hx => hk x (List.mem_cons_of_mem _ hx)) (by simp at hf; omega)
    refine ⟨t2, ?_, hv2, hu2⟩
    rw [parseCodeLoop]
    simp [Ne.symm h1, Ne.symm h2, Ne.symm h3, hn, Res.bind, hl]

/-- C14: when the upcoming tokens are an opening code-fence, content tokens c1..cn (n >= 1, none of
kind code-fence, break or end-of-input) and then a closing code-fence or end-of-input, the code
rule returns (no panic, given fuel for the n tokens) a Code leaf whose literal is the
concatenation of the literals of c1..cn in order and whose position is that of c1. -/
theorem parseCode_literal (fuel : Nat) (t : Tree) (fence c1 closer : item)
    (cs rest : List item) (hv : Valid t)
    (hu : upcoming t = fence :: c1 :: cs ++ closer :: rest)
    (_hfence : fence.typ = itemCode)
    (hk : ∀ c ∈ c1 :: cs, c.typ ≠ itemCode ∧ c.typ ≠ itemBreak ∧ c.typ ≠ itemEOF)
    (hc : closer.typ = itemCode ∨ closer.typ = itemEOF)
    (hf : cs.length + 2 ≤ fuel) :
    ∃ t1, parseCode fuel t
      = .ok (.Code NodeCode c1.pos ((c1 :: cs).foldl (fun acc c => acc ++ c.val) "") "" "") t1 := by
  obtain ⟨t1, hn1, hv1, hu1⟩ := next_upcoming hv hu
  obtain ⟨t2, hn2, hv2, hu2⟩ := next_upcoming hv1 hu1
  obtain ⟨t3, hl, hv3, hu3⟩ := parseCodeLoop_content closer rest hc cs c1 "" t2 fuel hv2 hu2 hk hf
  unfold parseCode
  simp only [hn1, hn2, hl, Res.bind]
  cases rest with
  | nil =>
    obtain ⟨t4, hp, _, _⟩ := peek_upcoming_nil hv3 hu3
    exact ⟨t4, by simp [hp, eofItem]⟩
  | cons r rest =>
    obtain ⟨t4, hp, hv4, hu4⟩ := peek_upcoming hv3 hu3
    by_cases hr : itemEOF = r.typ
    · exact ⟨t4, by simp [hp, hr]⟩
    · obtain ⟨t5, hn5, _, _⟩ := next_upcoming hv4 hu4
      exact ⟨t5, by simp [hp, hr, hn5]⟩

/-- On an upcoming text run the inline engine returns the Text leaf and consumes the token. -/
theorem parseText_upcoming {t : Tree} {p : Int} {s : String} {xs : List item} (f : Nat)
    (hv : Valid t) (hu : upcoming t = ⟨itemStr, p, s⟩ :: xs) :
    ∃ t1, parseStaticPhrasingContent (f + 1) t = .ok (.Text NodeText p s) t1 ∧ Valid t1 ∧
      upcoming t1 = xs := by
  obtain ⟨t1, hp, hv1, hu1⟩ := peek_upcoming hv hu
  obtain ⟨t2, hn, hv2, hu2⟩ := next_upcoming hv1 hu1
  exact ⟨t2, by simp [parseStaticPhrasingContent, parseText, hp, hn, Res.bind], hv2, hu2⟩

/-- C17: when the upcoming tokens are an emphasis (respectively strong) marker, a text run `s`, one
further token of any kind and `rest`, the inline engine returns the Emphasis (respectively
Strong) container whose only child is Text(s) and leaves exactly `rest` upcoming; in general
both rules consume one token, fill the single child slot with the result of one inline-engine
call, and then consume exactly one further token whatever its kind. -/
theorem parseEm_parseStrong_wrap (f : Nat) (t : Tree) (opener close : item) (p : Int)
    (s : String) (rest : List item) (hv : Valid t)
    (hu : upcoming t = opener :: ⟨itemStr, p, s⟩ :: close :: rest) :
    (opener.typ = itemEm → ∃ t1, parsePhrasingContent (f + 2) t
        = .ok (.Emphasis NodeEmphasis p [.Text NodeText p s]) t1 ∧ Valid t1 ∧ upcoming t1 = rest) ∧
    (opener.typ = itemStrong → ∃ t1, parsePhrasingContent (f + 2) t
        = .ok (.Strong NodeStrong p [.Text NodeText p s]) t1 ∧ Valid t1 ∧ upcoming t1 = rest) ∧
    (∀ (ph : Tree → Res Node) (u u1 u2 u3 u4 : Tree) (m tok x : item) (c : Node),
      next u = .ok m u1 → peek u1 = .ok tok u2 → ph u2 = .ok c u3 → next u3 = .ok x u4 →
      parseEm ph u = .ok (.Emphasis NodeEmphasis tok.pos [c]) u4 ∧
      parseStrong ph u = .ok (.Strong NodeStrong tok.pos [c]) u4) := by
  obtain ⟨t1, hp1, hv1, hu1⟩ := peek_upcoming hv hu
  obtain ⟨t2, hn2, hv2, hu2⟩ := next_upcoming hv1 hu1
  obtain ⟨t3, hp3, hv3, hu3⟩ := peek_upcoming hv2 hu2
  obtain ⟨t4, hx4, hv4, hu4⟩ := parseText_upcoming f hv3 hu3
  obtain ⟨t5, hn5, hv5, hu5⟩ := next_upcoming hv4 hu4
  refine ⟨fun h => ⟨t5, ?_, hv5, hu5⟩, fun h => ⟨t5, ?_, hv5, hu5⟩, ?_⟩
  · rw [parsePhrasingContent, parseStaticPhrasingContent]
    simp only [hp1, Res.bind, h, parseEm, hn2, hp3, hx4, hn5]
  · rw [parsePhrasingContent, parseStaticPhrasingContent]
    simp only [hp1, Res.bind, h, parseStrong, hn2, hp3, hx4, hn5]
  · intro ph u u1 u2 u3 u4 m tok x c h1 h2 h3 h4
    constructor
    · simp [parseEm, h1, h2, h3, h4, Res.bind]
    · simp [parseStrong, h1, h2, h3, h4, Res.bind]

/-- C20: for every cursor in working order whose upcoming tokens are spaces followed by a non-space
token `x`, `nextNonSpace` returns `x` (whose kind is not space) after consuming only the spaces
before it, and leaves the cursor just after `x`. -/
theorem nextNonSpace_first (x : item) (rest : List item) (hx : x.typ ≠ itemSpace) :
    ∀ (sps : List item) (t : Tree) (fuel : Nat), Valid t → upcoming t = sps ++ x :: rest →
      (∀ s ∈ sps, s.typ = itemSpace) → sps.length < fuel →
      ∃ t1, nextNonSpace fuel t = .ok x t1 ∧ Valid t1 ∧ upcoming t1 = rest := by
  intro sps
  induction sps with
  | nil =>
    intro t fuel hv hu _ hf
    obtain ⟨g, rfl⟩ : ∃ g, fuel = g + 1 := ⟨fuel - 1, by simp at hf; omega⟩
    obtain ⟨t1, hn, hv1, hu1⟩ := next_upcoming hv (by simpa using hu)
    exact ⟨t1, by simp [nextNonSpace, hn, Res.bind, hx], hv1, hu1⟩
  | cons sp sps ih =>
    intro t fuel hv hu hs hf
    obtain ⟨g, rfl⟩ : ∃ g, fuel = g + 1 := ⟨fuel - 1, by simp at hf; omega⟩
    obtain ⟨t1, hn, hv1, hu1⟩ := next_upcoming hv (by simpa using hu)
    obtain ⟨t2, hr, hv2, hu2⟩ := ih t1 g hv1 hu1
      (fun y hy => hs y (List.mem_cons_of_mem _ hy)) (by simp at hf; omega)
    have hsp : sp.typ = itemSpace := hs sp (List.mem_cons_self _ _)
    exact ⟨t2, by simp [nextNonSpace, hn, Res.bind, hsp, hr], hv2, hu2⟩

/-! ## Leading spaces: theorems -/

/-- The loop of `acceptSpaces` pulls the spaces from the lexer, counts them and leaves the first
other token pending. -/
theorem acceptSpacesLoop_pull (x : item) (rest : List item) (hx : x.typ ≠ itemSpace) :
    ∀ (sps : List item) (base : Tree) (ret : Int) (fuel : Nat),
      (∀ s ∈ sps, s.typ = itemSpace) → sps.length < fuel →
      acceptSpacesLoop fuel ret { base with lex := some ⟨sps ++ x :: rest⟩, peekCount := 0 }
        = .ok (ret + sps.length) (pendingTree base x rest) := by
  intro sps
  induction sps with
  | nil =>
    intro base ret fuel _ hf
    obtain ⟨g, rfl⟩ : ∃ g, fuel = g + 1 := ⟨fuel - 1, by simp at hf; omega⟩
    simp [acceptSpacesLoop, next, tokenAt, lexer.nextItem, Res.bind, Ne.symm hx, backup,
      pendingTree]
  | cons sp sps ih =>
    intro base ret fuel hs hf
    obtain ⟨g, rfl⟩ : ∃ g, fuel = g + 1 := ⟨fuel - 1, by simp at hf; omega⟩
    have hsp : sp.typ = itemSpace := hs sp (List.mem_cons_self _ _)
    have h := ih { base with token0 := sp } (ret + 1) g
      (fun y hy => hs y (List.mem_cons_of_mem _ hy)) (by simp at hf; omega)
    simp only [acceptSpacesLoop, next, tokenAt, lexer.nextItem, Res.bind, List.cons_append,
      lt_self_iff_false, if_false, if_true, hsp, ne_eq, not_true_eq_false]
    rw [h]
    simp only [pendingTree, List.length_cons, Nat.cast_add, Nat.cast_one]
    congr 1
    omega

/-- The call `acceptSpaces` with a space pending counts that space and the spaces that follow;
with four or more it pushes back twice. -/
theorem acceptSpaces_pending (x : item) (rest : List item) (hx : x.typ ≠ itemSpace)
    (sp : item) (sps : List item) (base : Tree) (fuel : Nat)
    (hsp : sp.typ = itemSpace) (hs : ∀ s ∈ sps, s.typ = itemSpace) (hf : sps.length + 1 < fuel) :
    acceptSpaces fuel (pendingTree base sp (sps ++ x :: rest))
      = .ok ((sps.length : Int) + 1)
          (if 4 ≤ (sps.length : Int) + 1 then backup (pendingTree base x rest)
            else pendingTree base x rest) := by
  obtain ⟨g, rfl⟩ : ∃ g, fuel = g + 1 := ⟨fuel - 1, by omega⟩
  have h := acceptSpacesLoop_pull x rest hx sps { base with token0 := sp } 1 g hs (by omega)
  unfold acceptSpaces
  simp only [acceptSpacesLoop, pendingTree, next, tokenAt, Res.bind, hsp, zero_lt_one, if_true,
    sub_self, ne_eq, not_true_eq_false, if_false, zero_add]
  rw [h]
  simp only [Res.bind, pendingTree, backup]
  have e : (1 : Int) + sps.length = sps.length + 1 := by omega
  rw [e]
  split <;> rfl

/-- On a space token the content loop counts the spaces and calls the code rule or the block
engine, appends the result to the Root and goes on. -/
theorem parseContentLoop_space (f : Nat) (base : Tree) (q : Int) (v : String) (rest : List item) :
    parseContentLoop (f + 1)
        { base with lex := some ⟨⟨itemSpace, q, v⟩ :: rest⟩, peekCount := 0 }
      = ((acceptSpaces f (pendingTree base ⟨itemSpace, q, v⟩ rest)).bind fun spaces t2 =>
          if 4 ≤ spaces then parseCode f t2 else parseTopLevelContent f t2).bind fun c t3 =>
          parseContentLoop f { t3 with Root := t3.Root.append c } := rfl

/-- After the doubled pushback of `acceptSpaces` the code rule skips the stale slot and returns
the Code leaf of the text run. -/
theorem parseCode_after_spaces (f : Nat) (base : Tree) (p ep : Int) (s ev : String) :
    parseCode (f + 2) (backup (pendingTree base ⟨itemStr, p, s⟩ [⟨itemEOF, ep, ev⟩]))
      = .ok (.Code NodeCode p s "" "")
          { base with token0 := eofItem, lex := some ⟨[]⟩, peekCount := 1 } := rfl

/-- With the text run pending the block engine returns its trimmed paragraph. -/
theorem parseTopLevelContent_after_spaces (f : Nat) (base : Tree) (p ep : Int) (s ev : String) :
    parseTopLevelContent (f + 3) (pendingTree base ⟨itemStr, p, s⟩ [⟨itemEOF, ep, ev⟩])
      = .ok (Node.Paragraph NodeParagraph p [.Text NodeText p s]).trim
          (pendingTree base ⟨itemEOF, ep, ev⟩ []) := rfl

/-- C16: for n space tokens followed by a text run `s` and end-of-input, the parse yields, when
n >= 4, a Root whose only child is the Code leaf with literal `s`, and when n < 4, a Root
whose only child is the trimmed Paragraph of the text run and no Code node. -/
theorem parseContent_leading_spaces (sp : List item) (hsp : ∀ x ∈ sp, x.typ = itemSpace)
    (p ep : Int) (s ev : String) (m : Nat) :
    (4 ≤ sp.length →
      parsedRoot (m + sp.length + 3) (sp ++ [⟨itemStr, p, s⟩, ⟨itemEOF, ep, ev⟩])
        = some (.Root NodeRoot 0 [.Code NodeCode p s "" ""])) ∧
    (sp.length < 4 →
      parsedRoot (m + sp.length + 4) (sp ++ [⟨itemStr, p, s⟩, ⟨itemEOF, ep, ev⟩])
        = some (.Root NodeRoot 0 [(Node.Paragraph NodeParagraph p [.Text NodeText p s]).trim]) ∧
      ∃ cs, (Node.Paragraph NodeParagraph p [.Text NodeText p s]).trim
        = .Paragraph NodeParagraph p cs) := by
  constructor
  · intro h4
    cases sp with
    | nil => simp at h4
    | cons sp1 sps =>
      obtain ⟨ty, q, v⟩ := sp1
      have hty : ty = itemSpace := hsp ⟨ty, q, v⟩ (List.mem_cons_self _ _)
      subst hty
      have hs : ∀ x ∈ sps, x.typ = itemSpace := fun x hx => hsp x (List.mem_cons_of_mem _ hx)
      have hacc := acceptSpaces_pending ⟨itemStr, p, s⟩ [⟨itemEOF, ep, ev⟩] (by simp)
        ⟨itemSpace, q, v⟩ sps { freshTree [] with Root := .Root NodeRoot 0 [] }
        (m + (sps.length + 1) + 2) rfl hs (by omega)
      have h4i : (4 : Int) ≤ (sps.length : Int) + 1 := by
        simp only [List.length_cons] at h4
        omega
      rw [if_pos h4i] at hacc
      unfold parsedRoot parseContent
      have e : ({ freshTree (⟨itemSpace, q, v⟩ :: sps ++ [⟨itemStr, p, s⟩, ⟨itemEOF, ep, ev⟩]) with
            Root := .Root NodeRoot 0 [] } : Tree)
          = { ({ freshTree [] with Root := .Root NodeRoot 0 [] } : Tree) with
              lex := some ⟨⟨itemSpace, q, v⟩ :: (sps ++ [⟨itemStr, p, s⟩, ⟨itemEOF, ep, ev⟩])⟩,
              peekCount := 0 } := rfl
      simp only [List.length_cons]
      rw [e, parseContentLoop_space, hacc]
      simp only [Res.bind, if_pos h4i]
      rw [parseCode_after_spaces]
      rfl
  · intro h4
    refine ⟨?_, ?_⟩
    · cases sp with
      | nil => rfl
      | cons sp1 sps =>
        obtain ⟨ty, q, v⟩ := sp1
        have hty : ty = itemSpace := hsp ⟨ty, q, v⟩ (List.mem_cons_self _ _)
        subst hty
        have hs : ∀ x ∈ sps, x.typ = itemSpace := fun x hx => hsp x (List.mem_cons_of_mem _ hx)
        have hacc := acceptSpaces_pending ⟨itemStr, p, s⟩ [⟨itemEOF, ep, ev⟩] (by simp)
          ⟨itemSpace, q, v⟩ sps { freshTree [] with Root := .Root NodeRoot 0 [] }
          (m + (sps.length + 1) + 3) rfl hs (by omega)
        have h4i : ¬ (4 : Int) ≤ (sps.length : Int) + 1 := by
          simp only [List.length_cons] at h4
          omega
        rw [if_neg h4i] at hacc
        unfold parsedRoot parseContent
        have e : ({ freshTree (⟨itemSpace, q, v⟩ :: sps ++ [⟨itemStr, p, s⟩, ⟨itemEOF, ep, ev⟩])
              with Root := .Root NodeRoot 0 [] } : Tree)
            = { ({ freshTree [] with Root := .Root NodeRoot 0 [] } : Tree) with
                lex := some ⟨⟨itemSpace, q, v⟩ :: (sps ++ [⟨itemStr, p, s⟩, ⟨itemEOF, ep, ev⟩])⟩,
                peekCount := 0 } := rfl
        simp only [List.length_cons]
        rw [e, parseContentLoop_space, hacc]
        simp only [Res.bind, if_neg h4i]
        rw [parseTopLevelContent_after_spaces]
        rfl
    · unfold Node.trim
      simp only [List.getLast?_singleton]
      split <;> simp

/-! ## Frame and shape of the tree: theorems -/

/-- The frame relation is reflexive. -/
theorem Frame.refl (t : Tree) : Frame t t := ⟨rfl, id⟩

/-- The frame relation is transitive. -/
theorem Frame.trans {t t1 t2 : Tree} (h1 : Frame t t1) (h2 : Frame t1 t2) : Frame t t2 :=
  ⟨h2.1.trans h1.1, fun h => h2.2 (h1.2 h)⟩

/-- A sound outcome stays sound from an earlier record within the frame. -/
theorem Res.Sound.frame {α : Type} {Q : α → Prop} {t t1 : Tree} {r : Res α}
    (hf : Frame t t1) (h : r.Sound Q t1) : r.Sound Q t := by
  cases r with
  | ok a u => exact ⟨hf.trans h.1, h.2⟩
  | panic e u => exact hf.trans h
  | outOfFuel => trivial

/-- Sequencing sound runs is sound. -/
theorem Res.Sound.bind {α β : Type} {Q1 : α → Prop} {Q2 : β → Prop} {t : Tree} {r : Res α}
    {k : α → Tree → Res β} (h1 : r.Sound Q1 t)
    (h2 : ∀ a t1, Q1 a → (k a t1).Sound Q2 t1) : (r.bind k).Sound Q2 t := by
  cases r with
  | ok a u => exact Res.Sound.frame h1.1 (h2 a u h1.2)
  | panic e u => exact h1
  | outOfFuel => trivial

/-- Returning a value with the property, leaving the record unchanged, is sound. -/
theorem Res.Sound.ok {α : Type} {Q : α → Prop} {t : Tree} {a : α} (h : Q a) :
    (Res.ok a t).Sound Q t := ⟨Frame.refl t, h⟩

/-- The array read respects the frame. -/
theorem tokenAt_sound (t : Tree) (i : Int) : (tokenAt t i).Sound (fun _ => True) t := by
  unfold tokenAt
  split_ifs
  · exact ⟨Frame.refl t, trivial⟩
  · exact ⟨Frame.refl t, trivial⟩
  · exact ⟨Frame.refl t, trivial⟩
  · exact Frame.refl t

/-- The call `next` respects the frame. -/
theorem next_sound (t : Tree) : (next t).Sound (fun _ => True) t := by
  unfold next
  split
  · exact Res.Sound.frame ⟨rfl, id⟩ (tokenAt_sound _ _)
  · rcases hl : t.lex with _ | l
    · exact Frame.refl t
    · have hf : Frame t { t with token0 := l.nextItem.1, lex := some l.nextItem.2 } :=
        ⟨rfl, fun _ => rfl⟩
      exact Res.Sound.frame hf (tokenAt_sound _ _)

/-- The call `peek` respects the frame. -/
theorem peek_sound (t : Tree) : (peek t).Sound (fun _ => True) t := by
  unfold peek
  split
  · exact tokenAt_sound _ _
  · rcases hl : t.lex with _ | l
    · simp only [hl]
      exact ⟨rfl, by simp [hl]⟩
    · simp only [hl]
      exact ⟨⟨rfl, fun _ => rfl⟩, trivial⟩

/-- Returning after a `backup` respects the frame. -/
theorem backup_sound {α : Type} {Q : α → Prop} (t : Tree) (a : α) (h : Q a) :
    (Res.ok a (backup t)).Sound Q t := ⟨⟨rfl, id⟩, h⟩

/-- The loop of `acceptSpaces` respects the frame. -/
theorem acceptSpacesLoop_sound : ∀ (fuel : Nat) (ret : Int) (t : Tree),
    (acceptSpacesLoop fuel ret t).Sound (fun _ => True) t := by
  intro fuel
  induction fuel with
  | zero => intro ret t; trivial
  | succ fuel ih =>
    intro ret t
    rw [acceptSpacesLoop]
    refine Res.Sound.bind (next_sound t) fun token t1 _ => ?_
    split
    · exact backup_sound t1 ret trivial
    · exact ih _ _

/-- The call `acceptSpaces` respects the frame. -/
theorem acceptSpaces_sound (fuel : Nat) (t : Tree) :
    (acceptSpaces fuel t).Sound (fun _ => True) t := by
  unfold acceptSpaces
  refine Res.Sound.bind (acceptSpacesLoop_sound fuel 0 t) fun ret t1 _ => ?_
  split
  · exact backup_sound t1 ret trivial
  · exact Res.Sound.ok trivial

/-- The call `acceptTabs` respects the frame. -/
theorem acceptTabs_sound : ∀ (tabs : Nat) (t : Tree),
    (acceptTabs tabs t).Sound (fun _ => True) t := by
  intro tabs
  induction tabs with
  | zero => intro t; exact Res.Sound.ok trivial
  | succ tabs ih =>
    intro t
    rw [acceptTabs]
    refine Res.Sound.bind (next_sound t) fun token t1 _ => ?_
    split
    · exact backup_sound t1 () trivial
    · exact ih _

/-- The rule `parseText` respects the frame and returns a Text leaf. -/
theorem parseText_sound (t : Tree) : (parseText t).Sound Produced t :=
  Res.Sound.bind (next_sound t) fun _ _ _ => Res.Sound.ok (Produced.text _ _)

/-- The rule `parseBreak` respects the frame and returns a Break leaf. -/
theorem parseBreak_sound (t : Tree) : (parseBreak t).Sound Produced t :=
  Res.Sound.bind (next_sound t) fun _ _ _ => Res.Sound.ok (Produced.brk _)

/-- The rule `parseThematicBreak` respects the frame and returns a ThematicBreak leaf. -/
theorem parseThematicBreak_sound (t : Tree) : (parseThematicBreak t).Sound Produced t :=
  Res.Sound.bind (next_sound t) fun _ _ _ => Res.Sound.ok (Produced.thematicBreak _)

/-- The rule `parseInlineCode` respects the frame and returns an InlineCode leaf. -/
theorem parseInlineCode_sound (t : Tree) : (parseInlineCode t).Sound Produced t :=
  Res.Sound.bind (next_sound t) fun _ t1 _ =>
  Res.Sound.bind (next_sound t1) fun _ t2 _ =>
  Res.Sound.bind (next_sound t2) fun _ _ _ => Res.Sound.ok (Produced.inlineCode _ _)

/-- The rule `parseEm` respects the frame and wraps one result of the inline engine. -/
theorem parseEm_sound (ph : Tree → Res Node) (hph : ∀ t, (ph t).Sound Produced t) (t : Tree) :
    (parseEm ph t).Sound Produced t :=
  Res.Sound.bind (next_sound t) fun _ t1 _ =>
  Res.Sound.bind (peek_sound t1) fun _ t2 _ =>
  Res.Sound.bind (hph t2) fun _ t3 hc =>
  Res.Sound.bind (next_sound t3) fun _ _ _ => Res.Sound.ok (Produced.emphasis _ _ hc)

/-- The rule `parseStrong` respects the frame and wraps one result of the inline engine. -/
theorem parseStrong_sound (ph : Tree → Res Node) (hph : ∀ t, (ph t).Sound Produced t)
    (t : Tree) : (parseStrong ph t).Sound Produced t :=
  Res.Sound.bind (next_sound t) fun _ t1 _ =>
  Res.Sound.bind (peek_sound t1) fun _ t2 _ =>
  Res.Sound.bind (hph t2) fun _ t3 hc =>
  Res.Sound.bind (next_sound t3) fun _ _ _ => Res.Sound.ok (Produced.strong _ _ hc)

/-- The inline engine respects the frame and returns nil or a node built by an inline rule. -/
theorem parseStaticPhrasingContent_sound : ∀ (fuel : Nat) (t : Tree),
    (parseStaticPhrasingContent fuel t).Sound Produced t := by
  intro fuel
  induction fuel with
  | zero => intro t; trivial
  | succ fuel ih =>
    intro t
    rw [parseStaticPhrasingContent]
    refine Res.Sound.bind (peek_sound t) fun token t1 _ => ?_
    split
    · exact parseText_sound t1
    · exact parseEm_sound _ ih t1
    · exact parseStrong_sound _ ih t1
    · exact parseInlineCode_sound t1
    · exact parseBreak_sound t1
    · exact Res.Sound.ok Produced.nil

/-- Trimming a paragraph of returned nodes gives a paragraph of returned nodes. -/
theorem produced_trim (p : Int) (cs : List Node) (h1 : ∀ c ∈ cs, Produced c)
    (h2 : ∀ c ∈ cs, c.isNil = false) : Produced (Node.Paragraph NodeParagraph p cs).trim := by
  unfold Node.trim
  simp only
  split
  · split
    · exact Produced.paragraph p _ (fun c hc => h1 c (List.mem_of_mem_dropLast hc))
        (fun c hc => h2 c (List.mem_of_mem_dropLast hc))
    · exact Produced.paragraph p cs h1 h2
  · exact Produced.paragraph p cs h1 h2

/-- The loop of the paragraph rule respects the frame and returns a paragraph of non-nil
returned nodes. -/
theorem parseParagraphLoop_sound (ph : Tree → Res Node) (hph : ∀ t, (ph t).Sound Produced t)
    (p : Int) : ∀ (fuel : Nat) (cs : List Node) (t : Tree),
      (∀ c ∈ cs, Produced c) → (∀ c ∈ cs, c.isNil = false) →
      (parseParagraphLoop ph fuel (.Paragraph NodeParagraph p cs) t).Sound Produced t := by
  intro fuel
  induction fuel with
  | zero => intro cs t _ _; trivial
  | succ fuel ih =>
    intro cs t h1 h2
    rw [parseParagraphLoop]
    refine Res.Sound.bind (hph t) fun c t1 hc => ?_
    by_cases hn : c.isNil = true
    · simp only [hn, if_true]
      exact Res.Sound.ok (produced_trim p cs h1 h2)
    · simp only [hn, if_false, Node.append]
      refine ih _ _ ?_ ?_
      · intro x hx
        rcases List.mem_append.mp hx with h | h
        · exact h1 x h
        · simp only [List.mem_singleton] at h
          subst h
          exact hc
      · intro x hx
        rcases List.mem_append.mp hx with h | h
        · exact h2 x h
        · simp only [List.mem_singleton] at h
          subst h
          simpa using hn

/-- The rule `parseParagraph` respects the frame and returns such a paragraph. -/
theorem parseParagraph_sound (ph : Tree → Res Node) (hph : ∀ t, (ph t).Sound Produced t)
    (fuel : Nat) (t : Tree) : (parseParagraph ph fuel t).Sound Produced t :=
  Res.Sound.bind (peek_sound t) fun _ t1 _ =>
    parseParagraphLoop_sound ph hph _ fuel [] t1 (by simp) (by simp)

/-- The rule `parseHeading` respects the frame and wraps one result of the inline engine. -/
theorem parseHeading_sound (ph : Tree → Res Node) (hph : ∀ t, (ph t).Sound Produced t)
    (t : Tree) : (parseHeading ph t).Sound Produced t :=
  Res.Sound.bind (next_sound t) fun _ t1 _ =>
  Res.Sound.bind (next_sound t1) fun _ t2 _ =>
  Res.Sound.bind (hph t2) fun _ _ hc => Res.Sound.ok (Produced.heading _ _ _ hc)

/-- The rule `parseBlockquote` respects the frame and wraps one result of the block engine. -/
theorem parseBlockquote_sound (pb : Tree → Res Node) (hpb : ∀ t, (pb t).Sound Produced t)
    (t : Tree) : (parseBlockquote pb t).Sound Produced t :=
  Res.Sound.bind (next_sound t) fun _ t1 _ =>
  Res.Sound.bind (next_sound t1) fun _ t2 _ =>
  Res.Sound.bind (hpb t2) fun _ _ hc => Res.Sound.ok (Produced.blockquote _ _ hc)

/-- The loop of the code rule respects the frame. -/
theorem parseCodeLoop_sound : ∀ (fuel : Nat) (token : item) (code : String) (t : Tree),
    (parseCodeLoop fuel token code t).Sound (fun _ => True) t := by
  intro fuel
  induction fuel with
  | zero => intro token code t; trivial
  | succ fuel ih =>
    intro token code t
    rw [parseCodeLoop]
    split
    · simp only
      split
      · refine Res.Sound.bind (peek_sound t) fun q t1 _ => ?_
        split
        · exact Res.Sound.ok trivial
        · refine Res.Sound.bind (acceptSpaces_sound fuel t1) fun spaces t2 _ => ?_
          split
          · exact Res.Sound.ok trivial
          · exact Res.Sound.bind (next_sound t2) fun _ _ _ => ih _ _ _
      · exact Res.Sound.bind (next_sound t) fun _ _ _ => ih _ _ _
    · exact Res.Sound.ok trivial

/-- The rule `parseCode` respects the frame and returns a Code leaf. -/
theorem parseCode_sound (fuel : Nat) (t : Tree) : (parseCode fuel t).Sound Produced t :=
  Res.Sound.bind (next_sound t) fun _ t1 _ =>
  Res.Sound.bind (next_sound t1) fun token t2 _ =>
  Res.Sound.bind (parseCodeLoop_sound fuel token "" t2) fun code t3 _ =>
  Res.Sound.bind (peek_sound t3) fun q t4 _ => by
    split
    · exact Res.Sound.ok (Produced.code _ _)
    · exact Res.Sound.bind (next_sound t4) fun _ _ _ => Res.Sound.ok (Produced.code _ _)

/-- The loop of the list-item rule respects the frame and returns a ListItem of non-nil
returned nodes. -/
theorem parseListItemLoop_sound (pb : Tree → Res Node) (hpb : ∀ t, (pb t).Sound Produced t)
    (p : Int) : ∀ (fuel : Nat) (cs : List Node) (t : Tree),
      (∀ c ∈ cs, Produced c) → (∀ c ∈ cs, c.isNil = false) →
      (parseListItemLoop pb fuel (.ListItem NodeListItem p false false cs) t).Sound
        (fun n => Produced n ∧ ∃ q ds, n = .ListItem NodeListItem q false false ds) t := by
  intro fuel
  induction fuel with
  | zero => intro cs t _ _; trivial
  | succ fuel ih =>
    intro cs t h1 h2
    rw [parseListItemLoop]
    refine Res.Sound.bind (hpb t) fun c t1 hc => ?_
    by_cases hn : c.isNil = true
    · simp only [hn, if_true]
      exact Res.Sound.ok ⟨Produced.listItem p cs h1 h2, p, cs, rfl⟩
    · simp only [hn, if_false, Node.append]
      refine ih _ _ ?_ ?_
      · intro x hx
        rcases List.mem_append.mp hx with h | h
        · exact h1 x h
        · simp only [List.mem_singleton] at h
          subst h
          exact hc
      · intro x hx
        rcases List.mem_append.mp hx with h | h
        · exact h2 x h
        · simp only [List.mem_singleton] at h
          subst h
          simpa using hn

/-- The rule `parseListItem` respects the frame and returns nil or such a ListItem. -/
theorem parseListItem_sound (pb : Tree → Res Node) (hpb : ∀ t, (pb t).Sound Produced t)
    (fuel : Nat) (t : Tree) :
    (parseListItem pb fuel t).Sound
      (fun n => n.isNil = true ∨
        (Produced n ∧ ∃ q ds, n = .ListItem NodeListItem q false false ds)) t := by
  unfold parseListItem
  refine Res.Sound.bind (peek_sound t) fun token t1 _ => ?_
  split
  · exact Res.Sound.ok (Or.inl rfl)
  · have h := parseListItemLoop_sound pb hpb token.pos fuel [] t1 (by simp) (by simp)
    revert h
    cases parseListItemLoop pb fuel (.ListItem NodeListItem token.pos false false []) t1 with
    | ok a u => exact fun h => ⟨h.1, Or.inr h.2⟩
    | panic e u => exact fun h => h
    | outOfFuel => exact fun h => h

/-- The loop of the list rule respects the frame and returns a List whose children are
ListItems. -/
theorem parseListLoop_sound (pb : Tree → Res Node) (hpb : ∀ t, (pb t).Sound Produced t)
    (itemFuel : Nat) (p : Int) : ∀ (fuel : Nat) (cs : List Node) (t : Tree),
      (∀ c ∈ cs, Produced c) → (∀ c ∈ cs, ∃ q ds, c = .ListItem NodeListItem q false false ds) →
      (parseListLoop pb itemFuel fuel (.List NodeList p false 1 false cs) t).Sound Produced t := by
  intro fuel
  induction fuel with
  | zero => intro cs t _ _; trivial
  | succ fuel ih =>
    intro cs t h1 h2
    rw [parseListLoop]
    refine Res.Sound.bind (parseListItem_sound pb hpb itemFuel t) fun c t1 hc => ?_
    by_cases hn : c.isNil = true
    · simp only [hn, if_true]
      exact Res.Sound.ok (Produced.list p cs h1 h2)
    · simp only [hn, if_false, Node.append]
      rcases hc with hc | ⟨hc1, hc2⟩
      · exact absurd hc hn
      · refine ih _ _ ?_ ?_
        · intro x hx
          rcases List.mem_append.mp hx with h | h
          · exact h1 x h
          · simp only [List.mem_singleton] at h
            subst h
            exact hc1
        · intro x hx
          rcases List.mem_append.mp hx with h | h
          · exact h2 x h
          · simp only [List.mem_singleton] at h
            subst h
            exact hc2

/-- The rule `parseList` respects the frame and returns such a List. -/
theorem parseList_sound (pb : Tree → Res Node) (hpb : ∀ t, (pb t).Sound Produced t)
    (fuel : Nat) (t : Tree) : (parseList pb fuel t).Sound Produced t :=
  Res.Sound.bind (next_sound t) fun _ t1 _ =>
  Res.Sound.bind (next_sound t1) fun _ t2 _ =>
  Res.Sound.bind (peek_sound t2) fun _ t3 _ =>
    parseListLoop_sound pb hpb fuel _ fuel [] t3 (by simp) (by simp)

/-- The block engine respects the frame and returns nil or a node built by a block rule. -/
theorem parseBlockContent_sound : ∀ (fuel indentLevel : Nat) (t : Tree),
    (parseBlockContent fuel indentLevel t).Sound Produced t := by
  intro fuel
  induction fuel with
  | zero => intro indentLevel t; trivial
  | succ fuel ih =>
    intro indentLevel t
    rw [parseBlockContent]
    refine Res.Sound.bind (acceptTabs_sound indentLevel t) fun _ t1 _ => ?_
    refine Res.Sound.bind (peek_sound t1) fun token t2 _ => ?_
    split
    · exact Res.Sound.bind (next_sound t2) fun _ _ _ => ih _ _
    · exact parseParagraph_sound _ (parseStaticPhrasingContent_sound fuel) fuel t2
    · exact parseHeading_sound _ (parseStaticPhrasingContent_sound fuel) t2
    · exact parseThematicBreak_sound t2
    · exact parseBlockquote_sound _ (ih 0) t2
    · exact parseInlineCode_sound t2
    · exact parseCode_sound fuel t2
    · exact parseCode_sound fuel t2
    · exact parseList_sound _ (ih 1) fuel t2
    · exact Res.Sound.ok Produced.nil

/-- A sound run followed by a run that keeps the root in shape keeps the root in shape. -/
theorem Res.Sound.rootSound {α : Type} {Q : α → Prop} {t : Tree} {r : Res α} {β : Type}
    {k : α → Tree → Res β} (hinv : RootInv t) (h : r.Sound Q t)
    (hk : ∀ a t1, Frame t t1 → Q a → (k a t1).RootSound t) : (r.bind k).RootSound t := by
  cases r with
  | ok a u => exact hk a u h.1 h.2
  | panic e u =>
    obtain ⟨cs, hr, hp⟩ := hinv
    exact ⟨⟨cs, by rw [h.1, hr], hp⟩, h.2⟩
  | outOfFuel => trivial

/-- The content loop keeps the root in shape and the lexer installed. -/
theorem parseContentLoop_sound : ∀ (fuel : Nat) (t : Tree), RootInv t →
    (parseContentLoop fuel t).RootSound t := by
  intro fuel
  induction fuel with
  | zero => intro t _; trivial
  | succ fuel ih =>
    intro t hinv
    rw [parseContentLoop]
    refine Res.Sound.rootSound hinv (peek_sound t) fun token t1 hf1 _ => ?_
    have hinv1 : RootInv t1 := by
      obtain ⟨cs, hr, hp⟩ := hinv
      exact ⟨cs, by rw [hf1.1, hr], hp⟩
    split
    · have hrule : ∀ (r : Res Node), r.Sound Produced t1 →
          (r.bind fun c t3 => parseContentLoop fuel { t3 with Root := t3.Root.append c }).RootSound
            t := by
        intro r hr
        cases r with
        | ok c t3 =>
          obtain ⟨cs, hroot, hp⟩ := hinv1
          have hinv3 : RootInv { t3 with Root := t3.Root.append c } := by
            refine ⟨cs ++ [c], ?_, ?_⟩
            · simp only [hr.1.1, hroot, Node.append]
            · intro x hx
              rcases List.mem_append.mp hx with h | h
              · exact hp x h
              · simp only [List.mem_singleton] at h
                subst h
                exact hr.2
          have h3 := ih _ hinv3
          simp only [Res.bind]
          revert h3
          cases parseContentLoop fuel { t3 with Root := t3.Root.append c } with
          | ok a u => exact fun h3 => ⟨h3.1, fun hl => h3.2 (hr.1.2 (hf1.2 hl))⟩
          | panic e u => exact fun h3 => ⟨h3.1, fun hl => h3.2 (hr.1.2 (hf1.2 hl))⟩
          | outOfFuel => exact fun _ => trivial
        | panic e t3 =>
          obtain ⟨cs, hroot, hp⟩ := hinv1
          exact ⟨⟨cs, by rw [hr.1, hroot], hp⟩, fun hl => hr.2 (hf1.2 hl)⟩
        | outOfFuel => trivial
      apply hrule
      split
      · refine Res.Sound.bind (acceptSpaces_sound fuel t1) fun spaces t2 _ => ?_
        split
        · exact parseCode_sound fuel t2
        · exact parseBlockContent_sound fuel 0 t2
      all_goals first
        | exact parseBlockContent_sound fuel 0 t1
        | exact parseStaticPhrasingContent_sound fuel t1
    · exact ⟨hinv1, hf1.2⟩

/-- The rule `parseContent` leaves a root in shape and keeps the lexer installed. -/
theorem parseContent_rootSound (fuel : Nat) (t : Tree) :
    (parseContent fuel t).RootSound { t with Root := .Root NodeRoot 0 [] } :=
  parseContentLoop_sound fuel _ ⟨[], rfl, by simp⟩

/-- The children of a returned node are returned nodes. -/
theorem produced_child {n c : Node} (hn : Produced n) (hc : c ∈ childrenOf n) : Produced c := by
  cases hn with
  | nil => simp [childrenOf] at hc
  | text p v => simp [childrenOf] at hc
  | brk p => simp [childrenOf] at hc
  | inlineCode p v => simp [childrenOf] at hc
  | code p v => simp [childrenOf] at hc
  | thematicBreak p => simp [childrenOf] at hc
  | emphasis p c1 h => simp only [childrenOf, List.mem_singleton] at hc; subst hc; exact h
  | strong p c1 h => simp only [childrenOf, List.mem_singleton] at hc; subst hc; exact h
  | heading p d c1 h => simp only [childrenOf, List.mem_singleton] at hc; subst hc; exact h
  | blockquote p c1 h => simp only [childrenOf, List.mem_singleton] at hc; subst hc; exact h
  | paragraph p cs h1 h2 => exact h1 c hc
  | listItem p cs h1 h2 => exact h1 c hc
  | list p cs h1 h2 => exact h1 c hc

/-- Every node of a root in shape is the root itself or a returned node. -/
theorem subnode_root {n : Node} {cs : List Node} (hp : ∀ c ∈ cs, Produced c)
    (h : Subnode n (.Root NodeRoot 0 cs)) : n = .Root NodeRoot 0 cs ∨ Produced n := by
  generalize hr : Node.Root NodeRoot 0 cs = r at h
  induction h with
  | refl => exact Or.inl rfl
  | child hc _ ih =>
    rcases ih hr with h1 | h1
    · subst h1
      subst hr
      exact Or.inr (hp _ hc)
    · exact Or.inr (produced_child h1 hc)

/-- C13: when `parseContent` completes normally, `parse` returns the nil error; when a panic
carrying a run-time error is raised inside the parse, `parse` intercepts it, drains the lexer
and returns exactly that error, as the deferred `recover` does for every panic in flight on a
record with an installed lexer: the lexer object it leaves has no token left; in both outcomes
the lexer handle of the record is cleared, a returned non-nil error comes with a drained lexer
and a cleared handle, and no panic leaves `parse`. -/
theorem parse_clears_lexer (lex : String → String → lexer) (fuel : Nat) (t : Tree) :
    (∀ t1, parseContent fuel (startParse (lex t.name t.text) t) = .ok () t1 →
      parse lex fuel t = .returned none (stopParse t1) t1.lex) ∧
    (∀ e t1, parseContent fuel (startParse (lex t.name t.text) t) = .panic e t1 →
      ∃ l, t1.lex = some l ∧
        parse lex fuel t = .returned (some e) (stopParse t1) (some l.drain)) ∧
    (∀ (e : Panic) (err : Option Panic) (u : Tree) (l : lexer) (lx : Option lexer),
      u.lex = some l →
      recover (some e) err u lx = .returned (some e) (stopParse u) (some l.drain) ∧
        l.drain.items = [] ∧ (stopParse u).lex = none) ∧
    (∀ err t1 lx, parse lex fuel t = .returned err t1 lx →
      t1.lex = none ∧ (err ≠ none → ∃ l, lx = some l ∧ l.items = [])) ∧
    (∀ e t1, parse lex fuel t ≠ .crashed e t1) := by
  have hs := parseContent_rootSound fuel (startParse (lex t.name t.text) t)
  have key : ∀ e t1, parseContent fuel (startParse (lex t.name t.text) t) = .panic e t1 →
      ∃ l, t1.lex = some l := by
    intro e t1 h
    rw [h] at hs
    exact Option.isSome_iff_exists.mp (hs.2 rfl)
  refine ⟨?_, ?_, ?_, ?_, ?_⟩
  · intro t1 h
    simp [parse, h, recover]
  · intro e t1 h
    obtain ⟨l, hl⟩ := key e t1 h
    exact ⟨l, hl, by simp [parse, h, recover, hl, stopParse]⟩
  · intro e err u l lx hl
    exact ⟨by simp [recover, hl, stopParse], rfl, rfl⟩
  · intro err t1 lx h
    unfold parse at h
    rcases hc : parseContent fuel (startParse (lex t.name t.text) t) with ⟨_, u⟩ | ⟨e, u⟩ | _
    · rw [hc] at h
      simp only [recover, ParseOutcome.returned.injEq] at h
      obtain ⟨h1, h2, _⟩ := h
      refine ⟨by rw [← h2]; rfl, fun hne => absurd h1.symm hne⟩
    · obtain ⟨l, hl⟩ := key e u hc
      rw [hc] at h
      simp only [recover, hl, ParseOutcome.returned.injEq] at h
      obtain ⟨_, h2, h3⟩ := h
      exact ⟨by rw [← h2]; rfl, fun _ => ⟨l.drain, h3.symm, rfl⟩⟩
    · rw [hc] at h
      cases h
  · intro e t1 h
    unfold parse at h
    rcases hc : parseContent fuel (startParse (lex t.name t.text) t) with ⟨_, u⟩ | ⟨e1, u⟩ | _
    · rw [hc] at h
      simp [recover] at h
    · obtain ⟨l, hl⟩ := key e1 u hc
      rw [hc] at h
      simp [recover, hl] at h
    · rw [hc] at h
      cases h

/-- C13 (witness): on the tokens of `"> quoted\n"` the content loop completes and `Parse`
returns the nil error with the lexer handle cleared; the deferred `recover`, run with a panic in
flight on the record `Parse` has started (its lexer still holds the five tokens), returns that
panic as the error, clears the handle and leaves the lexer object without a token. -/
theorem parse_clears_lexer_witness :
    (parseContent 6 startedTree
        = .ok () (pendingTree
            { startedTree with
              Root := .Root NodeRoot 0
                [.Blockquote NodeParagraph 0
                  [.Paragraph NodeParagraph 2 [.Text NodeText 2 "quoted"]]] }
            ⟨itemEOF, 9, ""⟩ []) ∧
      Parse (fun _ _ => ⟨quoteTokens⟩) 6 "" ""
        = .returned none
            { startedTree with
              Root := .Root NodeRoot 0
                [.Blockquote NodeParagraph 0
                  [.Paragraph NodeParagraph 2 [.Text NodeText 2 "quoted"]]],
              token0 := ⟨itemEOF, 9, ""⟩, lex := none, peekCount := 1 }
            (some ⟨[]⟩)) ∧
    (startedTree.lex = some ⟨quoteTokens⟩ ∧
      recover (some (.indexOutOfRange 3)) none startedTree startedTree.lex
        = .returned (some (.indexOutOfRange 3)) { startedTree with lex := none } (some ⟨[]⟩) ∧
      (lexer.drain ⟨quoteTokens⟩).items = [] ∧ (stopParse startedTree).lex = none) :=
  ⟨⟨rfl, (parse_clears_lexer (fun _ _ => ⟨quoteTokens⟩) 6
      { Root := .nil, name := "", text := "", lex := none, token0 := ⟨itemError, 0, ""⟩,
        token1 := ⟨itemError, 0, ""⟩, token2 := ⟨itemError, 0, ""⟩, peekCount := 0 }).1 _ rfl⟩,
    rfl,
    (parse_clears_lexer (fun _ _ => ⟨quoteTokens⟩) 6
      { Root := .nil, name := "", text := "", lex := none, token0 := ⟨itemError, 0, ""⟩,
        token1 := ⟨itemError, 0, ""⟩, token2 := ⟨itemError, 0, ""⟩, peekCount := 0 }).2.2.1
      (.indexOutOfRange 3) none startedTree ⟨quoteTokens⟩ startedTree.lex rfl⟩

/-- C18: in the tree a parse leaves, whether it returns or panics, every List node has
ordered=false, start=1 and spread=false, and every child of every List node is a ListItem
node. -/
theorem list_nodes_shape (fuel : Nat) (t t1 : Tree)
    (h : parseContent fuel t = .ok () t1 ∨ ∃ e, parseContent fuel t = .panic e t1) :
    ∀ n, Subnode n t1.Root → ∀ ty p o st sp cs, n = Node.List ty p o st sp cs →
      o = false ∧ st = 1 ∧ sp = false ∧
      ∀ c ∈ cs, ∃ ty1 q ch sp1 ds, c = Node.ListItem ty1 q ch sp1 ds := by
  have hs := parseContent_rootSound fuel t
  have hinv : RootInv t1 := by
    rcases h with h | ⟨e, h⟩ <;> rw [h] at hs <;> exact hs.1
  obtain ⟨rs, hroot, hp⟩ := hinv
  intro n hn ty p o st sp cs hlist
  rw [hroot] at hn
  rcases subnode_root hp hn with h1 | h1
  · rw [h1] at hlist
    cases hlist
  · rw [hlist] at h1
    cases h1 with
    | list p cs h1 h2 =>
      refine ⟨rfl, rfl, rfl, fun c hc => ?_⟩
      obtain ⟨q, ds, hq⟩ := h2 c hc
      exact ⟨_, _, _, _, _, hq⟩

/-- C19: the tree a parse leaves, whether it returns or panics, contains no Delete node at any
depth. -/
theorem no_delete_node (fuel : Nat) (t t1 : Tree)
    (h : parseContent fuel t = .ok () t1 ∨ ∃ e, parseContent fuel t = .panic e t1) :
    ∀ n, Subnode n t1.Root → ∀ ty p cs, n ≠ Node.Delete ty p cs := by
  have hs := parseContent_rootSound fuel t
  have hinv : RootInv t1 := by
    rcases h with h | ⟨e, h⟩ <;> rw [h] at hs <;> exact hs.1
  obtain ⟨rs, hroot, hp⟩ := hinv
  intro n hn ty p cs hdel
  rw [hroot] at hn
  rcases subnode_root hp hn with h1 | h1
  · rw [h1] at hdel
    cases hdel
  · rw [hdel] at h1
    cases h1
/-! ## Evaluations and witnesses -/

/-- C14 (witness): an opening fence, the text runs `a` and `b`, then end-of-input. -/
theorem parseCode_literal_witness :
    (Valid (freshTree fenceUntilEOF) ∧
      upcoming (freshTree fenceUntilEOF)
        = ⟨itemCode, 0, "```"⟩ :: ⟨itemStr, 3, "a"⟩ :: [⟨itemStr, 4, "b"⟩] ++ ⟨itemEOF, 5, ""⟩ :: [] ∧
      (⟨itemCode, 0, "```"⟩ : item).typ = itemCode ∧
      (∀ c ∈ (⟨itemStr, 3, "a"⟩ : item) :: [⟨itemStr, 4, "b"⟩],
        c.typ ≠ itemCode ∧ c.typ ≠ itemBreak ∧ c.typ ≠ itemEOF) ∧
      ((⟨itemEOF, 5, ""⟩ : item).typ = itemCode ∨ (⟨itemEOF, 5, ""⟩ : item).typ = itemEOF) ∧
      [(⟨itemStr, 4, "b"⟩ : item)].length + 2 ≤ 3) ∧
    ∃ t1, parseCode 3 (freshTree fenceUntilEOF)
      = .ok (.Code NodeCode (3 : Int)
          (((⟨itemStr, 3, "a"⟩ : item) :: [⟨itemStr, 4, "b"⟩]).foldl (fun acc c => acc ++ c.val) "")
          "" "") t1 :=
  ⟨⟨⟨rfl, by decide, by decide⟩, rfl, rfl, by decide, Or.inr rfl, by decide⟩,
    parseCode_literal 3 (freshTree fenceUntilEOF) ⟨itemCode, 0, "```"⟩ ⟨itemStr, 3, "a"⟩
      ⟨itemEOF, 5, ""⟩ [⟨itemStr, 4, "b"⟩] [] ⟨rfl, by decide, by decide⟩ rfl rfl (by decide)
      (Or.inr rfl) (by decide)⟩

/-- C15 (evaluation): on an opening fence, the text run `code`, a closing fence, the text run
`after` and end-of-input, the code rule returns the Code leaf and leaves only end-of-input
upcoming: the token `after`, which follows the closing fence, is consumed as well, and the
parse yields a Root holding the Code leaf alone. -/
theorem parseCode_consumes_after_fence :
    parseBlockContent 3 0 (freshTree codeThenText)
      = .ok (.Code NodeCode 3 "code" "" "")
          { freshTree [⟨itemEOF, 15, ""⟩] with token0 := ⟨itemStr, 10, "after"⟩ } ∧
    upcoming { freshTree [⟨itemEOF, 15, ""⟩] with token0 := ⟨itemStr, 10, "after"⟩ }
      = [⟨itemEOF, 15, ""⟩] ∧
    parsedRoot 4 codeThenText = some (.Root NodeRoot 0 [.Code NodeCode 3 "code" "" ""]) :=
  ⟨rfl, rfl, rfl⟩

/-- C16 (witness): four spaces before the text run. -/
theorem parseContent_leading_spaces_witness :
    (∀ x ∈ fourSpaces, x.typ = itemSpace) ∧
    ((4 ≤ fourSpaces.length →
      parsedRoot (0 + fourSpaces.length + 3)
          (fourSpaces ++ [⟨itemStr, 4, "code"⟩, ⟨itemEOF, 8, ""⟩])
        = some (.Root NodeRoot 0 [.Code NodeCode 4 "code" "" ""])) ∧
    (fourSpaces.length < 4 →
      parsedRoot (0 + fourSpaces.length + 4)
          (fourSpaces ++ [⟨itemStr, 4, "code"⟩, ⟨itemEOF, 8, ""⟩])
        = some (.Root NodeRoot 0
            [(Node.Paragraph NodeParagraph 4 [.Text NodeText 4 "code"]).trim]) ∧
      ∃ cs, (Node.Paragraph NodeParagraph 4 [.Text NodeText 4 "code"]).trim
        = .Paragraph NodeParagraph 4 cs)) :=
  ⟨by decide, parseContent_leading_spaces fourSpaces (by decide) 4 8 "code" "" 0⟩

/-- C17 (witness): the tokens of `"*em*"`. -/
theorem parseEm_parseStrong_wrap_witness :
    (Valid (freshTree emTokens) ∧
      upcoming (freshTree emTokens)
        = ⟨itemEm, 0, "*"⟩ :: ⟨itemStr, 1, "em"⟩ :: ⟨itemEm, 3, "*"⟩ :: [⟨itemEOF, 4, ""⟩]) ∧
    (((⟨itemEm, 0, "*"⟩ : item).typ = itemEm → ∃ t1, parsePhrasingContent (0 + 2) (freshTree emTokens)
        = .ok (.Emphasis NodeEmphasis 1 [.Text NodeText 1 "em"]) t1 ∧ Valid t1 ∧
          upcoming t1 = [⟨itemEOF, 4, ""⟩]) ∧
    ((⟨itemEm, 0, "*"⟩ : item).typ = itemStrong → ∃ t1,
        parsePhrasingContent (0 + 2) (freshTree emTokens)
        = .ok (.Strong NodeStrong 1 [.Text NodeText 1 "em"]) t1 ∧ Valid t1 ∧
          upcoming t1 = [⟨itemEOF, 4, ""⟩]) ∧
    (∀ (ph : Tree → Res Node) (u u1 u2 u3 u4 : Tree) (m tok x : item) (c : Node),
      next u = .ok m u1 → peek u1 = .ok tok u2 → ph u2 = .ok c u3 → next u3 = .ok x u4 →
      parseEm ph u = .ok (.Emphasis NodeEmphasis tok.pos [c]) u4 ∧
      parseStrong ph u = .ok (.Strong NodeStrong tok.pos [c]) u4)) :=
  ⟨⟨⟨rfl, by decide, by decide⟩, rfl⟩,
    parseEm_parseStrong_wrap 0 (freshTree emTokens) ⟨itemEm, 0, "*"⟩ ⟨itemEm, 3, "*"⟩ 1 "em"
      [⟨itemEOF, 4, ""⟩] ⟨rfl, by decide, by decide⟩ rfl⟩

/-- C18 (witness): the tree of `"* item1\n* item2\n"`. -/
theorem list_nodes_shape_witness :
    (parseContent 8 (freshTree (bulletTokens [bulletItem1, bulletItem2] 16 ""))
        = .ok () { freshTree [] with
            Root := .Root NodeRoot 0 [nestedList bulletItem1 [bulletItem2]],
            token0 := ⟨itemEOF, 16, ""⟩, peekCount := 1 } ∨
      ∃ e, parseContent 8 (freshTree (bulletTokens [bulletItem1, bulletItem2] 16 ""))
        = .panic e { freshTree [] with
            Root := .Root NodeRoot 0 [nestedList bulletItem1 [bulletItem2]],
            token0 := ⟨itemEOF, 16, ""⟩, peekCount := 1 }) ∧
    ∀ n, Subnode n (Node.Root NodeRoot 0 [nestedList bulletItem1 [bulletItem2]]) →
      ∀ ty p o st sp cs, n = Node.List ty p o st sp cs →
        o = false ∧ st = 1 ∧ sp = false ∧
        ∀ c ∈ cs, ∃ ty1 q ch sp1 ds, c = Node.ListItem ty1 q ch sp1 ds :=
  ⟨Or.inl rfl,
    list_nodes_shape 8 (freshTree (bulletTokens [bulletItem1, bulletItem2] 16 ""))
      { freshTree [] with
        Root := .Root NodeRoot 0 [nestedList bulletItem1 [bulletItem2]],
        token0 := ⟨itemEOF, 16, ""⟩, peekCount := 1 } (Or.inl rfl)⟩

/-- C19 (witness): the tree of `"*em*"`. -/
theorem no_delete_node_witness :
    (parseContent 4 (freshTree emTokens)
        = .ok () { freshTree [] with
            Root := .Root NodeRoot 0 [.Emphasis NodeEmphasis 1 [.Text NodeText 1 "em"]],
            token0 := ⟨itemEOF, 4, ""⟩, peekCount := 1 } ∨
      ∃ e, parseContent 4 (freshTree emTokens)
        = .panic e { freshTree [] with
            Root := .Root NodeRoot 0 [.Emphasis NodeEmphasis 1 [.Text NodeText 1 "em"]],
            token0 := ⟨itemEOF, 4, ""⟩, peekCount := 1 }) ∧
    ∀ n, Subnode n (Node.Root NodeRoot 0 [.Emphasis NodeEmphasis 1 [.Text NodeText 1 "em"]]) →
      ∀ ty p cs, n ≠ Node.Delete ty p cs :=
  ⟨Or.inl rfl,
    no_delete_node 4 (freshTree emTokens)
      { freshTree [] with
        Root := .Root NodeRoot 0 [.Emphasis NodeEmphasis 1 [.Text NodeText 1 "em"]],
        token0 := ⟨itemEOF, 4, ""⟩, peekCount := 1 } (Or.inl rfl)⟩

/-- C20 (witness): two spaces before the text run `x`. -/
theorem nextNonSpace_first_witness :
    ((⟨itemStr, 2, "x"⟩ : item).typ ≠ itemSpace ∧ Valid (freshTree spacesThenText) ∧
      upcoming (freshTree spacesThenText)
        = [⟨itemSpace, 0, " "⟩, ⟨itemSpace, 1, " "⟩] ++ ⟨itemStr, 2, "x"⟩ :: [] ∧
      (∀ s ∈ [(⟨itemSpace, 0, " "⟩ : item), ⟨itemSpace, 1, " "⟩], s.typ = itemSpace) ∧
      [(⟨itemSpace, 0, " "⟩ : item), ⟨itemSpace, 1, " "⟩].length < 3) ∧
    ∃ t1, nextNonSpace 3 (freshTree spacesThenText) = .ok ⟨itemStr, 2, "x"⟩ t1 ∧ Valid t1 ∧
      upcoming t1 = [] :=
  ⟨⟨by decide, ⟨rfl, by decide, by decide⟩, rfl, by decide, by decide⟩,
    nextNonSpace_first ⟨itemStr, 2, "x"⟩ [] (by decide)
      [⟨itemSpace, 0, " "⟩, ⟨itemSpace, 1, " "⟩] (freshTree spacesThenText) 3
      ⟨rfl, by decide, by decide⟩ rfl (by decide) (by decide)⟩

/-! ## Pending count in bounds: theorems -/

/-- Sequencing safe runs is safe. -/
theorem Res.Safe.andThen {α β : Type} {P : α → Tree → Prop} {Q : β → Tree → Prop} {r : Res α}
    {k : α → Tree → Res β} (h1 : r.Safe P) (h2 : ∀ a t1, P a t1 → (k a t1).Safe Q) :
    (r.bind k).Safe Q := by
  cases r with
  | ok a u => exact h2 a u h1
  | panic e u => exact h1
  | outOfFuel => trivial

/-- A safe outcome stays safe under a weaker property. -/
theorem Res.Safe.mono {α : Type} {P Q : α → Tree → Prop} {r : Res α} (h1 : r.Safe P)
    (h2 : ∀ a t1, P a t1 → Q a t1) : r.Safe Q := by
  cases r with
  | ok a u => exact h2 a u h1
  | panic e u => exact h1
  | outOfFuel => trivial

/-- On a cursor in working order `next` reads the buffer in bounds; it leaves at most two
tokens pending, one less than before or none. -/
theorem next_safe {t : Tree} (hv : Valid t) :
    (next t).Safe fun _ t1 => Valid t1 ∧ t1.peekCount ≤ 2 ∧
      ((0 < t.peekCount ∧ t1.peekCount = t.peekCount - 1) ∨
        (t.peekCount = 0 ∧ t1.peekCount = 0)) := by
  obtain ⟨r, n, tx, lx, k0, k1, k2, pc⟩ := t
  obtain ⟨hl, h0, h3⟩ := hv
  simp only at hl h0 h3
  obtain ⟨l, rfl⟩ := Option.isSome_iff_exists.mp hl
  have hpc : pc = 0 ∨ pc = 1 ∨ pc = 2 ∨ pc = 3 := by omega
  rcases hpc with rfl | rfl | rfl | rfl <;> simp [next, tokenAt, Res.Safe, Valid]

/-- On a cursor in working order `peek` reads the buffer in bounds and leaves the cursor in
working order. -/
theorem peek_safe {t : Tree} (hv : Valid t) :
    (peek t).Safe fun _ t1 => Valid t1 := by
  obtain ⟨r, n, tx, lx, k0, k1, k2, pc⟩ := t
  obtain ⟨hl, h0, h3⟩ := hv
  simp only at hl h0 h3
  obtain ⟨l, rfl⟩ := Option.isSome_iff_exists.mp hl
  have hpc : pc = 0 ∨ pc = 1 ∨ pc = 2 ∨ pc = 3 := by omega
  rcases hpc with rfl | rfl | rfl | rfl <;> simp [peek, tokenAt, Res.Safe, Valid]

/-- The call `next` keeps the cursor in working order. -/
theorem next_safe_valid {t : Tree} (hv : Valid t) : (next t).Safe fun _ t1 => Valid t1 :=
  (next_safe hv).mono fun _ _ h => h.1

/-- A `backup` with at most two tokens pending keeps the cursor in working order. -/
theorem backup_valid {t : Tree} (hv : Valid t) (h2 : t.peekCount ≤ 2) : Valid (backup t) := by
  obtain ⟨hl, h0, _⟩ := hv
  exact ⟨hl, by simp only [backup]; omega, by simp only [backup]; omega⟩

/-- The call `acceptTabs` keeps the cursor in working order. -/
theorem acceptTabs_safe : ∀ (tabs : Nat) (t : Tree), Valid t →
    (acceptTabs tabs t).Safe fun _ t1 => Valid t1 := by
  intro tabs
  induction tabs with
  | zero => intro t hv; exact hv
  | succ tabs ih =>
    intro t hv
    rw [acceptTabs]
    refine (next_safe hv).andThen fun token t1 h => ?_
    split
    · exact backup_valid h.1 h.2.1
    · exact ih t1 h.1

/-- The loop of `acceptSpaces` keeps the cursor in working order; once four spaces are
counted nothing is pending before its pushback, so a second pushback stays in bounds. -/
theorem acceptSpacesLoop_safe : ∀ (fuel : Nat) (ret : Int) (t : Tree), Valid t → 0 ≤ ret →
    (t.peekCount + ret ≤ 3 ∨ t.peekCount = 0) →
    (acceptSpacesLoop fuel ret t).Safe fun ret1 t1 =>
      Valid t1 ∧ (4 ≤ ret1 → t1.peekCount ≤ 2) := by
  intro fuel
  induction fuel with
  | zero => intro ret t _ _ _; trivial
  | succ fuel ih =>
    intro ret t hv hr hb
    rw [acceptSpacesLoop]
    refine (next_safe hv).andThen fun token t1 h => ?_
    obtain ⟨hv1, h2, hstep⟩ := h
    split
    · refine ⟨backup_valid hv1 h2, fun h4 => ?_⟩
      simp only [backup]
      omega
    · refine ih _ t1 hv1 (by omega) ?_
      omega

/-- The call `acceptSpaces` keeps the cursor in working order. -/
theorem acceptSpaces_safe (fuel : Nat) (t : Tree) (hv : Valid t) :
    (acceptSpaces fuel t).Safe fun _ t1 => Valid t1 := by
  unfold acceptSpaces
  refine (acceptSpacesLoop_safe fuel 0 t hv (le_refl _) (Or.inl (by have := hv.2.2; omega))).andThen
    fun ret t1 h => ?_
  split
  · rename_i h4
    exact backup_valid h.1 (h.2 h4)
  · exact h.1

/-- The rule `parseText` keeps the cursor in working order. -/
theorem parseText_safe {t : Tree} (hv : Valid t) : (parseText t).Safe fun _ t1 => Valid t1 :=
  (next_safe_valid hv).andThen fun _ _ h => h

/-- The rule `parseBreak` keeps the cursor in working order. -/
theorem parseBreak_safe {t : Tree} (hv : Valid t) : (parseBreak t).Safe fun _ t1 => Valid t1 :=
  (next_safe_valid hv).andThen fun _ _ h => h

/-- The rule `parseThematicBreak` keeps the cursor in working order. -/
theorem parseThematicBreak_safe {t : Tree} (hv : Valid t) :
    (parseThematicBreak t).Safe fun _ t1 => Valid t1 :=
  (next_safe_valid hv).andThen fun _ _ h => h

/-- The rule `parseInlineCode` keeps the cursor in working order. -/
theorem parseInlineCode_safe {t : Tree} (hv : Valid t) :
    (parseInlineCode t).Safe fun _ t1 => Valid t1 :=
  (next_safe_valid hv).andThen fun _ _ h1 =>
  (next_safe_valid h1).andThen fun _ _ h2 =>
  (next_safe_valid h2).andThen fun _ _ h3 => h3

/-- The rule `parseEm` keeps the cursor in working order. -/
theorem parseEm_safe (ph : Tree → Res Node)
    (hph : ∀ t, Valid t → (ph t).Safe fun _ t1 => Valid t1) {t : Tree} (hv : Valid t) :
    (parseEm ph t).Safe fun _ t1 => Valid t1 :=
  (next_safe_valid hv).andThen fun _ _ h1 =>
  (peek_safe h1).andThen fun _ _ h2 =>
  (hph _ h2).andThen fun _ _ h3 =>
  (next_safe_valid h3).andThen fun _ _ h4 => h4

/-- The rule `parseStrong` keeps the cursor in working order. -/
theorem parseStrong_safe (ph : Tree → Res Node)
    (hph : ∀ t, Valid t → (ph t).Safe fun _ t1 => Valid t1) {t : Tree} (hv : Valid t) :
    (parseStrong ph t).Safe fun _ t1 => Valid t1 :=
  (next_safe_valid hv).andThen fun _ _ h1 =>
  (peek_safe h1).andThen fun _ _ h2 =>
  (hph _ h2).andThen fun _ _ h3 =>
  (next_safe_valid h3).andThen fun _ _ h4 => h4

/-- The inline engine keeps the cursor in working order. -/
theorem parseStaticPhrasingContent_safe : ∀ (fuel : Nat) (t : Tree), Valid t →
    (parseStaticPhrasingContent fuel t).Safe fun _ t1 => Valid t1 := by
  intro fuel
  induction fuel with
  | zero => intro t _; trivial
  | succ fuel ih =>
    intro t hv
    rw [parseStaticPhrasingContent]
    refine (peek_safe hv).andThen fun token t1 h1 => ?_
    split
    · exact parseText_safe h1
    · exact parseEm_safe _ ih h1
    · exact parseStrong_safe _ ih h1
    · exact parseInlineCode_safe h1
    · exact parseBreak_safe h1
    · exact h1

/-- The loop of the paragraph rule keeps the cursor in working order. -/
theorem parseParagraphLoop_safe (ph : Tree → Res Node)
    (hph : ∀ t, Valid t → (ph t).Safe fun _ t1 => Valid t1) :
    ∀ (fuel : Nat) (ret : Node) (t : Tree), Valid t →
      (parseParagraphLoop ph fuel ret t).Safe fun _ t1 => Valid t1 := by
  intro fuel
  induction fuel with
  | zero => intro ret t _; trivial
  | succ fuel ih =>
    intro ret t hv
    rw [parseParagraphLoop]
    refine (hph t hv).andThen fun c t1 h1 => ?_
    split
    · exact h1
    · exact ih _ _ h1

/-- The rule `parseParagraph` keeps the cursor in working order. -/
theorem parseParagraph_safe (ph : Tree → Res Node)
    (hph : ∀ t, Valid t → (ph t).Safe fun _ t1 => Valid t1) (fuel : Nat) {t : Tree}
    (hv : Valid t) : (parseParagraph ph fuel t).Safe fun _ t1 => Valid t1 :=
  (peek_safe hv).andThen fun _ _ h1 => parseParagraphLoop_safe ph hph fuel _ _ h1

/-- The rule `parseHeading` keeps the cursor in working order. -/
theorem parseHeading_safe (ph : Tree → Res Node)
    (hph : ∀ t, Valid t → (ph t).Safe fun _ t1 => Valid t1) {t : Tree} (hv : Valid t) :
    (parseHeading ph t).Safe fun _ t1 => Valid t1 :=
  (next_safe_valid hv).andThen fun _ _ h1 =>
  (next_safe_valid h1).andThen fun _ _ h2 =>
  (hph _ h2).andThen fun _ _ h3 => h3

/-- The rule `parseBlockquote` keeps the cursor in working order. -/
theorem parseBlockquote_safe (pb : Tree → Res Node)
    (hpb : ∀ t, Valid t → (pb t).Safe fun _ t1 => Valid t1) {t : Tree} (hv : Valid t) :
    (parseBlockquote pb t).Safe fun _ t1 => Valid t1 :=
  (next_safe_valid hv).andThen fun _ _ h1 =>
  (next_safe_valid h1).andThen fun _ _ h2 =>
  (hpb _ h2).andThen fun _ _ h3 => h3

/-- The loop of the code rule keeps the cursor in working order. -/
theorem parseCodeLoop_safe : ∀ (fuel : Nat) (token : item) (code : String) (t : Tree),
    Valid t → (parseCodeLoop fuel token code t).Safe fun _ t1 => Valid t1 := by
  intro fuel
  induction fuel with
  | zero => intro token code t _; trivial
  | succ fuel ih =>
    intro token code t hv
    rw [parseCodeLoop]
    split
    · simp only
      split
      · refine (peek_safe hv).andThen fun q t1 h1 => ?_
        split
        · exact h1
        · refine (acceptSpaces_safe fuel t1 h1).andThen fun spaces t2 h2 => ?_
          split
          · exact h2
          · exact (next_safe_valid h2).andThen fun _ _ h3 => ih _ _ _ h3
      · exact (next_safe_valid hv).andThen fun _ _ h1 => ih _ _ _ h1
    · exact hv

/-- The rule `parseCode` keeps the cursor in working order. -/
theorem parseCode_safe (fuel : Nat) {t : Tree} (hv : Valid t) :
    (parseCode fuel t).Safe fun _ t1 => Valid t1 :=
  (next_safe_valid hv).andThen fun _ _ h1 =>
  (next_safe_valid h1).andThen fun token _ h2 =>
  (parseCodeLoop_safe fuel token "" _ h2).andThen fun _ _ h3 =>
  (peek_safe h3).andThen fun _ _ h4 => by
    split
    · exact h4
    · exact (next_safe_valid h4).andThen fun _ _ h5 => h5

/-- The loop of the list-item rule keeps the cursor in working order. -/
theorem parseListItemLoop_safe (pb : Tree → Res Node)
    (hpb : ∀ t, Valid t → (pb t).Safe fun _ t1 => Valid t1) :
    ∀ (fuel : Nat) (ret : Node) (t : Tree), Valid t →
      (parseListItemLoop pb fuel ret t).Safe fun _ t1 => Valid t1 := by
  intro fuel
  induction fuel with
  | zero => intro ret t _; trivial
  | succ fuel ih =>
    intro ret t hv
    rw [parseListItemLoop]
    refine (hpb t hv).andThen fun c t1 h1 => ?_
    split
    · exact h1
    · exact ih _ _ h1

/-- The rule `parseListItem` keeps the cursor in working order. -/
theorem parseListItem_safe (pb : Tree → Res Node)
    (hpb : ∀ t, Valid t → (pb t).Safe fun _ t1 => Valid t1) (fuel : Nat) {t : Tree}
    (hv : Valid t) : (parseListItem pb fuel t).Safe fun _ t1 => Valid t1 :=
  (peek_safe hv).andThen fun _ _ h1 => by
    split
    · exact h1
    · exact parseListItemLoop_safe pb hpb fuel _ _ h1

/-- The loop of the list rule keeps the cursor in working order. -/
theorem parseListLoop_safe (pb : Tree → Res Node)
    (hpb : ∀ t, Valid t → (pb t).Safe fun _ t1 => Valid t1) (itemFuel : Nat) :
    ∀ (fuel : Nat) (list : Node) (t : Tree), Valid t →
      (parseListLoop pb itemFuel fuel list t).Safe fun _ t1 => Valid t1 := by
  intro fuel
  induction fuel with
  | zero => intro list t _; trivial
  | succ fuel ih =>
    intro list t hv
    rw [parseListLoop]
    refine (parseListItem_safe pb hpb itemFuel hv).andThen fun c t1 h1 => ?_
    split
    · exact h1
    · exact ih _ _ h1

/-- The rule `parseList` keeps the cursor in working order. -/
theorem parseList_safe (pb : Tree → Res Node)
    (hpb : ∀ t, Valid t → (pb t).Safe fun _ t1 => Valid t1) (fuel : Nat) {t : Tree}
    (hv : Valid t) : (parseList pb fuel t).Safe fun _ t1 => Valid t1 :=
  (next_safe_valid hv).andThen fun _ _ h1 =>
  (next_safe_valid h1).andThen fun _ _ h2 =>
  (peek_safe h2).andThen fun _ _ h3 => parseListLoop_safe pb hpb fuel fuel _ _ h3

/-- The block engine keeps the cursor in working order. -/
theorem parseBlockContent_safe : ∀ (fuel indentLevel : Nat) (t : Tree), Valid t →
    (parseBlockContent fuel indentLevel t).Safe fun _ t1 => Valid t1 := by
  intro fuel
  induction fuel with
  | zero => intro indentLevel t _; trivial
  | succ fuel ih =>
    intro indentLevel t hv
    rw [parseBlockContent]
    refine (acceptTabs_safe indentLevel t hv).andThen fun _ t1 h1 => ?_
    refine (peek_safe h1).andThen fun token t2 h2 => ?_
    split
    · exact (next_safe_valid h2).andThen fun _ _ h3 => ih _ _ h3
    · exact parseParagraph_safe _ (parseStaticPhrasingContent_safe fuel) fuel h2
    · exact parseHeading_safe _ (parseStaticPhrasingContent_safe fuel) h2
    · exact parseThematicBreak_safe h2
    · exact parseBlockquote_safe _ (ih 0) h2
    · exact parseInlineCode_safe h2
    · exact parseCode_safe fuel h2
    · exact parseCode_safe fuel h2
    · exact parseList_safe _ (ih 1) fuel h2
    · exact h2

/-- The content loop keeps the cursor in working order. -/
theorem parseContentLoop_safe : ∀ (fuel : Nat) (t : Tree), Valid t →
    (parseContentLoop fuel t).Safe fun _ t1 => Valid t1 := by
  intro fuel
  induction fuel with
  | zero => intro t _; trivial
  | succ fuel ih =>
    intro t hv
    rw [parseContentLoop]
    refine (peek_safe hv).andThen fun token t1 h1 => ?_
    split
    · have hrule : ∀ (r : Res Node), (r.Safe fun _ t3 => Valid t3) →
          (r.bind fun c t3 =>
            parseContentLoop fuel { t3 with Root := t3.Root.append c }).Safe
            fun _ t4 => Valid t4 :=
        fun r hr => hr.andThen fun c t3 h3 => ih _ h3
      apply hrule
      split
      · refine (acceptSpaces_safe fuel t1 h1).andThen fun spaces t2 h2 => ?_
        split
        · exact parseCode_safe fuel h2
        · exact parseBlockContent_safe fuel 0 t2 h2
      all_goals first
        | exact parseBlockContent_safe fuel 0 t1 h1
        | exact parseStaticPhrasingContent_safe fuel t1 h1
    · exact h1

/-- The rule `parseContent` keeps the cursor in working order. -/
theorem parseContent_safe (fuel : Nat) (t : Tree) (hv : Valid t) :
    (parseContent fuel t).Safe fun _ t1 => Valid t1 :=
  parseContentLoop_safe fuel _ hv

/-! ## Stack: theorems -/

/-- In a reached stack the count lies between 0 and the length of the slice. -/
theorem stack.Reached.count_le {α : Type} {s : stack α} (h : stack.Reached s) :
    0 ≤ s.count ∧ s.count ≤ s.items.length := by
  induction h with
  | empty => simp [stack.empty]
  | @push s s1 e _ hp ih =>
    unfold stack.push at hp
    rw [if_pos ih] at hp
    cases hp
    simp only [List.length_append, List.length_take, List.length_singleton]
    omega
  | pop _ ih =>
    unfold stack.pop
    split
    · exact ih
    · simp only
      omega

/-- C23 (evaluation): after `push(7)` and `pop()` on the empty stack the count is 0 and `pop` and
`peek` return nil for lack of an element, yet `isEmpty` returns false, because it tests the
length of the slice, which `pop` never shortens; on reached stacks `isEmpty` true does imply
count 0. -/
theorem stack_isEmpty_after_pop :
    (stack.empty.push 7 = some (⟨[7], 1⟩ : stack Nat)) ∧
    (⟨[7], 1⟩ : stack Nat).pop = (.elem 7, ⟨[7], 0⟩) ∧
    stack.Reached (⟨[7], 0⟩ : stack Nat) ∧
    (⟨[7], 0⟩ : stack Nat).isEmpty = false ∧
    (⟨[7], 0⟩ : stack Nat).count = 0 ∧
    (⟨[7], 0⟩ : stack Nat).pop.1 = .nil ∧
    (⟨[7], 0⟩ : stack Nat).peek = .nil ∧
    (∀ s : stack Nat, stack.Reached s → s.isEmpty = true → s.count = 0) := by
  refine ⟨rfl, rfl, ?_, rfl, rfl, rfl, rfl, ?_⟩
  · exact stack.Reached.pop (stack.Reached.push 7 stack.Reached.empty rfl)
  · intro s hs he
    have h := hs.count_le
    simp only [stack.isEmpty, decide_eq_true_eq] at he
    omega

/-! ## Bounds and nil children: claims -/

/-- The array read needs no fuel. -/
theorem tokenAt_ne_outOfFuel (t : Tree) (i : Int) : tokenAt t i ≠ .outOfFuel := by
  unfold tokenAt
  split_ifs <;> simp

/-- On a cursor in working order `next` returns and keeps the cursor in working order. -/
theorem next_returns {t : Tree} (hv : Valid t) : ∃ x t1, next t = .ok x t1 ∧ Valid t1 := by
  have h := next_safe_valid hv
  rcases hn : next t with ⟨x, t1⟩ | ⟨e, t1⟩ | _
  · rw [hn] at h
    exact ⟨x, t1, rfl, h⟩
  · rw [hn] at h
    exact h.elim
  · unfold next at hn
    split at hn
    · exact absurd hn (tokenAt_ne_outOfFuel _ _)
    · split at hn
      · cases hn
      · exact absurd hn (tokenAt_ne_outOfFuel _ _)

/-- On a cursor in working order `peek` returns and keeps the cursor in working order. -/
theorem peek_returns {t : Tree} (hv : Valid t) : ∃ x t1, peek t = .ok x t1 ∧ Valid t1 := by
  have h := peek_safe hv
  rcases hn : peek t with ⟨x, t1⟩ | ⟨e, t1⟩ | _
  · rw [hn] at h
    exact ⟨x, t1, rfl, h⟩
  · rw [hn] at h
    exact h.elim
  · unfold peek at hn
    split at hn
    · exact absurd hn (tokenAt_ne_outOfFuel _ _)
    · simp only at hn
      split at hn <;> cases hn

/-- C21: a parse started by `parseContent` on a cursor in working order (lexer installed, pending
count between 0 and 3) never panics and leaves the pending count between 0 and 3; so do the
cursor calls `next` and `peek`, whose buffer reads are therefore in bounds, the space and tab
acceptors and every grammar engine, whatever the tokens; hence `Parse` never returns an error
from the failure boundary. -/
theorem pending_count_in_bounds (fuel : Nat) (t : Tree) (hv : Valid t) :
    (parseContent fuel t).Safe (fun _ t1 => Valid t1) ∧
    (∀ u, Valid u →
      (∃ x u1, next u = .ok x u1 ∧ Valid u1) ∧ (∃ x u1, peek u = .ok x u1 ∧ Valid u1)) ∧
    (∀ (f i : Nat) (u : Tree), Valid u →
      (acceptSpaces f u).Safe (fun _ u1 => Valid u1) ∧
      (acceptTabs i u).Safe (fun _ u1 => Valid u1) ∧
      (parsePhrasingContent f u).Safe (fun _ u1 => Valid u1) ∧
      (parseCode f u).Safe (fun _ u1 => Valid u1) ∧
      (parseBlockContent f i u).Safe (fun _ u1 => Valid u1)) ∧
    (∀ (lex : String → String → lexer) (name text : String) (err : Option Panic) (t1 : Tree)
        (lx : Option lexer),
      Parse lex fuel name text = .returned err t1 lx → err = none) := by
  refine ⟨parseContent_safe fuel t hv, fun u hu => ⟨next_returns hu, peek_returns hu⟩,
    fun f i u hu => ⟨acceptSpaces_safe f u hu, acceptTabs_safe i u hu,
      parseStaticPhrasingContent_safe f u hu, parseCode_safe f hu,
      parseBlockContent_safe f i u hu⟩, ?_⟩
  intro lex name text err t1 lx h
  unfold Parse parse at h
  have hs := parseContent_safe fuel
    (startParse (lex name text)
      { Root := .nil, name := name, text := text, lex := none, token0 := ⟨itemError, 0, ""⟩,
        token1 := ⟨itemError, 0, ""⟩, token2 := ⟨itemError, 0, ""⟩, peekCount := 0 })
    ⟨rfl, by simp [startParse], by simp [startParse]⟩
  simp only at h
  revert h hs
  cases parseContent fuel
    (startParse (lex name text)
      { Root := .nil, name := name, text := text, lex := none, token0 := ⟨itemError, 0, ""⟩,
        token1 := ⟨itemError, 0, ""⟩, token2 := ⟨itemError, 0, ""⟩, peekCount := 0 }) with
  | ok a u =>
    intro h _
    simp only [recover, ParseOutcome.returned.injEq] at h
    exact h.1.symm
  | panic e u => exact fun _ hs => hs.elim
  | outOfFuel => exact fun h _ => by cases h

/-- C21 (witness): the parse of the tokens of `"> quoted\n"` from a fresh cursor. -/
theorem pending_count_in_bounds_witness :
    Valid (freshTree quoteTokens) ∧
    ((parseContent 6 (freshTree quoteTokens)).Safe (fun _ t1 => Valid t1) ∧
    (∀ u, Valid u →
      (∃ x u1, next u = .ok x u1 ∧ Valid u1) ∧ (∃ x u1, peek u = .ok x u1 ∧ Valid u1)) ∧
    (∀ (f i : Nat) (u : Tree), Valid u →
      (acceptSpaces f u).Safe (fun _ u1 => Valid u1) ∧
      (acceptTabs i u).Safe (fun _ u1 => Valid u1) ∧
      (parsePhrasingContent f u).Safe (fun _ u1 => Valid u1) ∧
      (parseCode f u).Safe (fun _ u1 => Valid u1) ∧
      (parseBlockContent f i u).Safe (fun _ u1 => Valid u1)) ∧
    (∀ (lex : String → String → lexer) (name text : String) (err : Option Panic) (t1 : Tree)
        (lx : Option lexer),
      Parse lex 6 name text = .returned err t1 lx → err = none)) :=
  ⟨⟨rfl, by decide, by decide⟩,
    pending_count_in_bounds 6 (freshTree quoteTokens) ⟨rfl, by decide, by decide⟩⟩

/-- C22 (evaluation): the terminating parses of a heading marker and a space, of a quote marker
and a space, and of an emphasis marker, each followed by end-of-input, store the nil result of
the inline or block engine as the only child of the Heading, Blockquote and Emphasis node;
the children of Paragraph, List and ListItem nodes are never nil. -/
theorem nil_child_stored :
    parsedRoot 3 headingNoText = some (.Root NodeRoot 0 [.Heading NodeHeading 0 1 [.nil]]) ∧
    parsedRoot 3 quoteNoText = some (.Root NodeRoot 0 [.Blockquote NodeParagraph 0 [.nil]]) ∧
    parsedRoot 3 emNoText = some (.Root NodeRoot 0 [.Emphasis NodeEmphasis 1 [.nil]]) ∧
    (∀ (fuel : Nat) (t t1 : Tree), parseContent fuel t = .ok () t1 →
      ∀ n, Subnode n t1.Root →
        n.variantTag = some NodeParagraph ∨ n.variantTag = some NodeList ∨
          n.variantTag = some NodeListItem →
        ∀ c ∈ childrenOf n, c.isNil = false) := by
  refine ⟨rfl, rfl, rfl, ?_⟩
  intro fuel t t1 h n hn htag c hc
  have hs := parseContent_rootSound fuel t
  rw [h] at hs
  obtain ⟨rs, hroot, hp⟩ := hs.1
  rw [hroot] at hn
  rcases subnode_root hp hn with h1 | h1
  · subst h1
    simp [Node.variantTag] at htag
  · cases h1 with
    | paragraph p cs h1 h2 => exact h2 c hc
    | listItem p cs h1 h2 => exact h2 c hc
    | list p cs h1 h2 =>
      obtain ⟨q, ds, hq⟩ := h2 c hc
      rw [hq]
      rfl
    | nil => simp [childrenOf] at hc
    | text p v => simp [childrenOf] at hc
    | brk p => simp [childrenOf] at hc
    | inlineCode p v => simp [childrenOf] at hc
    | code p v => simp [childrenOf] at hc
    | thematicBreak p => simp [childrenOf] at hc
    | emphasis p c1 h => simp [Node.variantTag] at htag
    | strong p c1 h => simp [Node.variantTag] at htag
    | heading p d c1 h => simp [Node.variantTag] at htag
    | blockquote p c1 h => simp [Node.variantTag] at htag

end Lute
